import Mathlib

/-
Verification development for the golang-yaml-advanced repository.

The Go sources under verification are src/yaml.go and src/advanced.go.
This file gives a shallow embedding of the in-memory document tree
(Node / Document / NodeTree), the merge engine (MergeNodes), the diff
engine (DiffNodes / DiffTrees), the transform pipeline (TransformDSL),
and the repository-owned part of parsing (UnmarshalYAML, splitDocuments,
ConvertFromYAMLNode), followed by theorems settling the frozen claims.

Modelling conventions, applied throughout and noted again at each
definition they affect:

* Go pointer graphs are modelled as pure trees.  The back-references
  `Node.Parent` (always the enclosing container) and the pointer
  `Node.Alias` are omitted: `Parent` is derivable from the tree shape and
  no claim under consideration inspects it or `Alias`.  The back-reference
  `Node.Key` IS modelled (claim C6 depends on it) as an `Option Node`
  holding a structural copy of the sibling key node; an assignment
  `value.Key = keyNode` in Go is modelled as storing a copy of `keyNode`.
* `Node.Line`, `Node.Column`, `Node.EmptyLines` and `Node.Metadata` are
  omitted: no modelled operation reads them and `Clone` copies them
  verbatim, so they cannot influence any claim.
* Go `interface{}` values stored in `Node.Value` are only ever consumed
  through `fmt.Sprintf("%v", v)` and through equality of those rendered
  strings; the inductive `Value` below carries exactly enough structure to
  render, with `vOther` covering any further dynamic value by its
  rendering.
* Go `map` iteration order is unspecified; maps are modelled as
  association lists with Go assignment semantics (update in place if the
  key exists, append otherwise) and iterated in list order.  Every theorem
  stated about map-iterating code is insensitive to iteration order.
* Go machine integers appear only as list indices and lengths, which
  cannot overflow in any execution reachable from the modelled
  operations, so Nat is used.
* Mutation of an operation's input (as opposed to mutation of freshly
  built or cloned nodes) is made explicit by functions returning the
  post-state of the input alongside the result; where a code path
  provably touches only clones, the post-state is the input itself.
-/

set_option maxHeartbeats 1600000
set_option linter.unusedVariables false

namespace YamlAdv

/-- NodeKind, src/yaml.go lines 11-20. -/
inductive NodeKind where
  | DocumentNode
  | MappingNode
  | SequenceNode
  | ScalarNode
  | AliasNode
  | NullNode
deriving DecidableEq, Repr

/-- NodeStyle, src/yaml.go lines 41-52. -/
inductive NodeStyle where
  | DefaultStyle
  | LiteralStyle
  | FoldedStyle
  | QuotedStyle
  | DoubleQuotedStyle
  | FlowStyle
  | TaggedStyle
  | SingleQuotedStyle
deriving DecidableEq, Repr

/-- The dynamically typed `Value interface{}` slot of a Node.  Every use
site in the Go sources renders it with `fmt.Sprintf("%v", v)` or compares
such renderings, so the model keeps just enough structure to render;
`vOther` stands for any other dynamic value, carried by its rendering
(for example a float64, whose Go rendering is its `%v` form). -/
inductive Value where
  | vNil
  | vStr (s : String)
  | vBool (b : Bool)
  | vInt (i : Int)
  | vOther (rendered : String)
deriving DecidableEq, Repr

/-- `fmt.Sprintf("%v", v)` for the dynamic values that can inhabit
`Node.Value`: Go renders a nil interface as `<nil>`, strings verbatim,
booleans as `true`/`false`, and int64 in decimal. -/
def Value.render : Value → String
  | .vNil => "<nil>"
  | .vStr s => s
  | .vBool b => if b then "true" else "false"
  | .vInt i => toString i
  | .vOther r => r

/-- The non-recursive fields of a Node (src/yaml.go lines 77-94), with the
omissions listed in the header comment. -/
structure NodeData where
  kind : NodeKind
  style : NodeStyle := .DefaultStyle
  tag : String := ""
  value : Value := .vNil
  anchor : String := ""
  headComment : List String := []
  lineComment : String := ""
  footComment : List String := []
deriving DecidableEq, Repr

/-- Node, src/yaml.go lines 77-94: the scalar fields, the owned
`Children`, and the `Key` back-reference (a structural copy of the
sibling key node, see the header comment). -/
inductive Node where
  | mk (data : NodeData) (children : List Node) (key : Option Node)
deriving Repr

def Node.data : Node → NodeData
  | .mk d _ _ => d

def Node.children : Node → List Node
  | .mk _ c _ => c

def Node.key : Node → Option Node
  | .mk _ _ k => k

def Node.kind (n : Node) : NodeKind := n.data.kind
def Node.style (n : Node) : NodeStyle := n.data.style
def Node.tag (n : Node) : String := n.data.tag
def Node.value (n : Node) : Value := n.data.value
def Node.anchor (n : Node) : String := n.data.anchor
def Node.headComment (n : Node) : List String := n.data.headComment
def Node.lineComment (n : Node) : String := n.data.lineComment
def Node.footComment (n : Node) : List String := n.data.footComment

def Node.withData : Node → NodeData → Node
  | .mk _ c k, d => .mk d c k

def Node.withChildren : Node → List Node → Node
  | .mk d _ k, c => .mk d c k

def Node.withKey : Node → Option Node → Node
  | .mk d c _, k => .mk d c k

/-- `fmt.Sprintf("%v", n.Value)`, the rendered text of a node's value. -/
def Node.render (n : Node) : String := n.value.render

/-- NewNode, src/yaml.go lines 136-143: fresh node of the given kind with
default style, empty children and no value. -/
def NewNode (k : NodeKind) : Node := .mk { kind := k } [] none

/-- NewScalarNode, src/yaml.go lines 145-149. -/
def NewScalarNode (v : Value) : Node := .mk { kind := .ScalarNode, value := v } [] none

/-- NewMappingNode, src/yaml.go lines 151-153. -/
def NewMappingNode : Node := NewNode .MappingNode

/-- NewSequenceNode, src/yaml.go lines 155-157. -/
def NewSequenceNode : Node := NewNode .SequenceNode

/-- Node.AddChild, src/yaml.go lines 159-164 (the nil-child guard is a
no-op here; setting `child.Parent` is dropped with the Parent field). -/
def Node.AddChild (n : Node) (child : Node) : Node :=
  n.withChildren (n.children ++ [child])

/-- Node.AddKeyValue, src/yaml.go lines 166-177.  Adding to a non-mapping
node is an error; a nil key is a silent no-op; otherwise the pair is
appended and the value's Key back-reference set to the key.  (In Go a nil
value with a non-nil key would dereference nil; callers always pass a
non-nil value.) -/
def Node.AddKeyValue (n : Node) (k : Option Node) (v : Node) : Except String Node :=
  if n.kind ≠ .MappingNode then
    .error "can only add key-value pairs to mapping nodes"
  else
    match k with
    | none => .ok n
    | some kn => .ok (n.withChildren (n.children ++ [kn, v.withKey (some kn)]))

/-- Node.GetMapValue, src/yaml.go lines 187-198: first pair whose scalar
key renders to the requested text. -/
def Node.GetMapValue (n : Node) (key : String) : Option Node :=
  if n.kind ≠ .MappingNode then none
  else
    let rec go : List Node → Option Node
      | k :: v :: rest =>
        if k.kind = .ScalarNode ∧ k.render = key then some v else go rest
      | _ => none
    go n.children

/-- The key node that `Node.GetMapValue` would match: same pair scan as
src/yaml.go lines 191-196, returning the key half.  Helper for stating
theorems about comments carried on mapping keys. -/
def Node.getMapKeyNode (n : Node) (key : String) : Option Node :=
  if n.kind ≠ .MappingNode then none
  else
    let rec go : List Node → Option Node
      | k :: v :: rest =>
        if k.kind = .ScalarNode ∧ k.render = key then some k else go rest
      | _ => none
    go n.children

/-- Node.Remove, src/yaml.go lines 420-433, viewed from the parent: the
child at position `i` of `n.Children` is spliced out.  (Go locates the
child by pointer identity inside the parent's slice; positions model
that.  A node with no parent is rejected in Go before any mutation, so
the operation is only modelled on a parent.) -/
def Node.removeChildAt (n : Node) (i : Nat) : Node :=
  n.withChildren (n.children.take i ++ n.children.drop (i + 1))

/-- Node.ReplaceWith, src/yaml.go lines 435-450, viewed from the parent:
the child at position `i` is replaced by `r`, whose Key back-reference is
set to the replaced child's. -/
def Node.replaceChildAt (n : Node) (i : Nat) (r : Node) : Node :=
  match n.children.get? i with
  | none => n
  | some old => n.withChildren (n.children.set i (r.withKey old.key))

/-- Node.Clone / cloneWithSeen, src/yaml.go lines 267-317: deep copy of
the scalar fields, the children and the Key back-reference.  The `seen`
map only matters for graphs with shared or cyclic pointers, which a pure
tree cannot express; on trees the Go code takes the plain recursive path
modelled here.  (`clone.Alias` is left nil by Go, and Alias is omitted
from the model.) -/
def Node.Clone : Node → Node
  | .mk d c k =>
    .mk d (c.attach.map fun ⟨x, hx⟩ => x.Clone)
      (match k with
       | none => none
       | some x => some x.Clone)
termination_by n => sizeOf n
decreasing_by
  all_goals simp_wf
  · have := List.sizeOf_lt_of_mem hx
    omega
  · omega

/-- The `len(pairs)-1` bounded, step-2 pair extraction used by the Go
loops (`for i := 0; i < len(children)-1; i += 2`): a trailing unpaired
child is dropped. -/
def goPairs : List Node → List (Node × Node)
  | k :: v :: rest => (k, v) :: goPairs rest
  | _ => []

/-- Rebuild a children list from key/value pairs (the `newChildren`
accumulation loops). -/
def flattenPairs : List (Node × Node) → List Node
  | [] => []
  | (k, v) :: rest => k :: v :: flattenPairs rest

/-- Assignment `m[k] = v` on a Go map modelled as an association list:
update in place when the key is present, append otherwise.  (Go maps are
unordered; list order stands in for an arbitrary iteration order, and
every theorem about map-iterating code is order-insensitive.) -/
def mapUpsert (m : List (String × α)) (k : String) (v : α) : List (String × α) :=
  if m.any (fun e => e.1 = k) then
    m.map (fun e => if e.1 = k then (k, v) else e)
  else m ++ [(k, v)]

/-- Go map lookup `m[k]`. -/
def mapLookup (m : List (String × α)) (k : String) : Option α :=
  (m.find? (fun e => e.1 = k)).map Prod.snd

/-- The `baseKeys` map of MergeNodes, src/yaml.go lines 476-483: rendered
text of each scalar key of `cs` mapped to the child index of that key
(`i` counts by 2; a later duplicate overwrites an earlier one, exactly as
the Go map assignment does). -/
def buildBaseKeys (i : Nat) (cs : List Node) (m : List (String × Nat)) : List (String × Nat) :=
  match cs with
  | k :: _v :: rest =>
    buildBaseKeys (i + 2) rest
      (if k.kind = .ScalarNode then mapUpsert m k.render i else m)
  | _ => m

/-- The per-class comment overwrite applied to an existing base key when a
shared key's value is replaced, src/yaml.go lines 506-515: each comment
class of the overlay key replaces the base key's only when non-empty. -/
def overwriteKeyComments (baseKey overlayKey : Node) : Node :=
  baseKey.withData
    { baseKey.data with
      headComment :=
        if overlayKey.headComment ≠ [] then overlayKey.headComment
        else baseKey.headComment
      lineComment :=
        if overlayKey.lineComment ≠ "" then overlayKey.lineComment
        else baseKey.lineComment
      footComment :=
        if overlayKey.footComment ≠ [] then overlayKey.footComment
        else baseKey.footComment }

/-- Fallback node used for the (unreachable) out-of-range list reads in
the merge loop; `baseKeys` only ever stores in-range indices. -/
def defaultNode : Node := NewNode .NullNode

mutual

/-- MergeNodes for two non-nil nodes, src/yaml.go lines 470-551.
Mapping/mapping: clone the base, then fold the overlay pairs over the
clone's children (`mergeOverlayPairs`).  Sequence/sequence: clone the
base and append clones of the overlay items.  Anything else: the
overlay's clone wins, inheriting the base's comments per class when its
own class is empty. -/
def MergeNonNil (base overlay : Node) : Node :=
  if base.kind = .MappingNode ∧ overlay.kind = .MappingNode then
    let result := base.Clone
    result.withChildren
      (mergeOverlayPairs (buildBaseKeys 0 base.children []) overlay.children result.children)
  else if base.kind = .SequenceNode ∧ overlay.kind = .SequenceNode then
    let result := base.Clone
    result.withChildren (result.children ++ overlay.children.map Node.Clone)
  else
    let result := overlay.Clone
    result.withData
      { result.data with
        headComment :=
          if result.headComment = [] ∧ base.headComment ≠ [] then base.headComment
          else result.headComment
        lineComment :=
          if result.lineComment = "" ∧ base.lineComment ≠ "" then base.lineComment
          else result.lineComment
        footComment :=
          if result.footComment = [] ∧ base.footComment ≠ [] then base.footComment
          else result.footComment }
termination_by (sizeOf overlay, 1)
decreasing_by
  cases overlay with
  | mk d c k =>
    simp [Node.children]
    omega

/-- The overlay-pair loop of MergeNodes, src/yaml.go lines 485-529,
acting on the accumulated children `cur` of the result clone.  A
non-scalar overlay key is skipped.  A key found in `baseKeys` either
triggers a recursive merge (both values mappings) or replaces the value
with the overlay value's clone — whose Key back-reference is a clone of
the current key node taken BEFORE its comments are overwritten, matching
the statement order of lines 503-515.  An unknown key appends a cloned
pair whose value's Key points at the cloned key. -/
def mergeOverlayPairs (baseKeys : List (String × Nat)) (cs : List Node) (cur : List Node) :
    List Node :=
  match cs with
  | overlayKey :: overlayValue :: rest =>
    let cur' :=
      if overlayKey.kind = .ScalarNode then
        match mapLookup baseKeys overlayKey.render with
        | some baseIdx =>
          let baseValue := cur.getD (baseIdx + 1) defaultNode
          if baseValue.kind = .MappingNode ∧ overlayValue.kind = .MappingNode then
            cur.set (baseIdx + 1) (MergeNonNil baseValue overlayValue)
          else
            let keyAt := cur.getD baseIdx defaultNode
            let clonedValue := overlayValue.Clone.withKey (some keyAt.Clone)
            (cur.set baseIdx (overwriteKeyComments keyAt overlayKey)).set
              (baseIdx + 1) clonedValue
        | none =>
          cur ++ [overlayKey.Clone, overlayValue.Clone.withKey (some overlayKey.Clone)]
      else cur
    mergeOverlayPairs baseKeys rest cur'
  | _ => cur
termination_by (sizeOf cs, 0)
decreasing_by
  all_goals simp_wf
  all_goals omega

end

/-- MergeNodes, src/yaml.go lines 459-468: the nil guards around
`MergeNonNil`. -/
def MergeNodes : Option Node → Option Node → Option Node
  | none, none => none
  | none, some overlay => some overlay.Clone
  | some base, none => some base.Clone
  | some base, some overlay => some (MergeNonNil base overlay)

/-- CLAIM-SIDE definition (C2), written from the claim text, to be
compared with `MergeNonNil`: the treatment of one base pair `p` under the
key-wise union.  A key present only in base keeps its pair (cloned); a
key present in both takes the overlay value — merged recursively only
when both values are mappings, otherwise the overlay value clone (with
its Key back-reference pointing at the base key) replaces the base value,
the base key absorbing the overlay key's non-empty comment classes. -/
def mergeShared (oPairs : List (Node × Node)) (p : Node × Node) : Node × Node :=
  match oPairs.find? (fun q => q.1.render == p.1.render) with
  | none => (p.1.Clone, p.2.Clone)
  | some q =>
    if p.2.kind = .MappingNode ∧ q.2.kind = .MappingNode then (p.1, MergeNonNil p.2 q.2)
    else (overwriteKeyComments p.1 q.1, q.2.Clone.withKey (some p.1.Clone))

/-- CLAIM-SIDE definition (C2): the overlay-only pairs of `oPart`
relative to the base pairs, cloned, in overlay order. -/
def oOnlyPart (bPairs oPart : List (Node × Node)) : List (Node × Node) :=
  (oPart.filter (fun q => bPairs.all (fun p => !(p.1.render == q.1.render)))).map
    (fun q => (q.1.Clone, q.2.Clone.withKey (some q.1.Clone)))

/-- CLAIM-SIDE definition (C2): the key-wise union the claim describes —
the base pairs in base order, shared keys taking overlay's value, then
the overlay-only pairs appended in overlay order. -/
def mergeMappingClaim (b o : Node) : Node :=
  let bPairs := goPairs b.children
  let oPairs := goPairs o.children
  b.withChildren
    (flattenPairs (bPairs.map (mergeShared oPairs)) ++
     flattenPairs (oOnlyPart bPairs oPairs))

/-- The pair-level view of one iteration of `mergeOverlayPairs`, used to
relate the child-index-based loop to the pair lists (`plook` returns the
PAIR index of a base key). -/
def mergePairStep (plook : String → Option Nat) (cur : List (Node × Node)) (p : Node × Node) :
    List (Node × Node) :=
  if p.1.kind = .ScalarNode then
    match plook p.1.render with
    | some j =>
      if (cur.getD j (defaultNode, defaultNode)).2.kind = .MappingNode ∧
          p.2.kind = .MappingNode then
        cur.set j ((cur.getD j (defaultNode, defaultNode)).1,
          MergeNonNil (cur.getD j (defaultNode, defaultNode)).2 p.2)
      else
        cur.set j (overwriteKeyComments (cur.getD j (defaultNode, defaultNode)).1 p.1,
          p.2.Clone.withKey (some (cur.getD j (defaultNode, defaultNode)).1.Clone))
    | none => cur ++ [(p.1.Clone, p.2.Clone.withKey (some p.1.Clone))]
  else cur

/-- DiffType, src/yaml.go lines 1018-1028. -/
inductive DiffType where
  | DiffNone
  | DiffAdded
  | DiffRemoved
  | DiffModified
  | DiffCommentChanged
  | DiffStyleChanged
  | DiffReordered
deriving DecidableEq, Repr

/-- The dynamic values the Go code stores in the `interface{}` fields
`DiffResult.OldValue` / `NewValue`: a node value, a NodeKind, a
NodeStyle, or a tag string. -/
inductive DiffPayload where
  | ofValue (v : Value)
  | ofKind (k : NodeKind)
  | ofStyle (s : NodeStyle)
  | ofTag (t : String)
deriving DecidableEq, Repr

/-- DiffResult, src/yaml.go lines 1005-1016 (a Go nil interface or nil
pointer is `none`). -/
structure DiffResult where
  type : DiffType
  path : String
  oldValue : Option DiffPayload := none
  newValue : Option DiffPayload := none
  oldNode : Option Node := none
  newNode : Option Node := none
  oldComment : List String := []
  newComment : List String := []
  description : String := ""
deriving Repr

/-- The key→value maps built by the mapping branch of DiffNodes,
src/yaml.go lines 1174-1194: rendered text of each scalar key mapped to
the value node of that pair, later duplicates overwriting. -/
def buildKeyMap : List Node → List (String × Node) → List (String × Node)
  | k :: v :: rest, m =>
    buildKeyMap rest (if k.kind = .ScalarNode then mapUpsert m k.render v else m)
  | _, m => m

/-- Pair up equal positions of two lists, tagging each pair with its
index (the `for i := 0; i < minLen; i++` loop shape of src/yaml.go lines
1241-1245). -/
def zipIdx (i : Nat) : List α → List β → List (Nat × α × β)
  | a :: as, b :: bs => (i, a, b) :: zipIdx (i + 1) as bs
  | _, _ => []

/-- Tag each element of a list with its position starting at `i` (the
tail loops of src/yaml.go lines 1248-1269). -/
def idxFrom (i : Nat) : List α → List (Nat × α)
  | [] => []
  | a :: as => (i, a) :: idxFrom (i + 1) as

theorem mapUpsert_mem {m : List (String × α)} {k : String} {v : α} {e : String × α}
    (h : e ∈ mapUpsert m k v) : e ∈ m ∨ e = (k, v) := by
  unfold mapUpsert at h
  split at h
  · rcases List.mem_map.mp h with ⟨e', he', heq⟩
    by_cases hk : e'.1 = k
    · right
      rw [← heq]
      simp [hk]
    · left
      rw [← heq]
      simpa [hk] using he'
  · rcases List.mem_append.mp h with h' | h'
    · exact Or.inl h'
    · exact Or.inr (by simpa using h')

theorem buildKeyMap_mem : ∀ (cs : List Node) (m : List (String × Node)) (e : String × Node),
    e ∈ buildKeyMap cs m → e ∈ m ∨ sizeOf e.2 < sizeOf cs
  | [], m, e => by
    intro h
    simp only [buildKeyMap] at h
    exact Or.inl h
  | [k], m, e => by
    intro h
    simp only [buildKeyMap] at h
    exact Or.inl h
  | k :: v :: rest, m, e => by
    intro h
    rw [buildKeyMap] at h
    rcases buildKeyMap_mem rest _ e h with h' | h'
    · split at h'
      · rcases mapUpsert_mem h' with h'' | h''
        · exact Or.inl h''
        · right
          rw [h'']
          simp
          omega
      · exact Or.inl h'
    · right
      simp
      omega

theorem mapLookup_mem {m : List (String × α)} {k : String} {v : α}
    (h : mapLookup m k = some v) : ∃ s, (s, v) ∈ m := by
  unfold mapLookup at h
  rcases Option.map_eq_some'.mp h with ⟨e, he, hv⟩
  exact ⟨e.1, by simpa [← hv] using List.mem_of_find?_eq_some he⟩

theorem zipIdx_mem : ∀ {l₁ : List α} {l₂ : List β} {i j : Nat} {a : α} {b : β},
    (j, a, b) ∈ zipIdx i l₁ l₂ → a ∈ l₁ ∧ b ∈ l₂ := by
  intro l₁
  induction l₁ with
  | nil =>
    intro l₂ i j a b h
    simp [zipIdx] at h
  | cons x xs ih =>
    intro l₂ i j a b h
    cases l₂ with
    | nil => simp [zipIdx] at h
    | cons y ys =>
      simp only [zipIdx, List.mem_cons] at h
      rcases h with h | h
      · obtain ⟨h1, h2, h3⟩ : j = i ∧ a = x ∧ b = y := by simpa using h
        subst h2
        subst h3
        simp
      · rcases ih h with ⟨ha, hb⟩
        exact ⟨List.mem_cons_of_mem _ ha, List.mem_cons_of_mem _ hb⟩

theorem sizeOf_lt_of_mem_children {c : Node} {n : Node} (h : c ∈ n.children) :
    sizeOf c < sizeOf n := by
  cases n with
  | mk d ch k =>
    have := List.sizeOf_lt_of_mem h
    simp [Node.children] at this ⊢
    omega

theorem children_sizeOf_lt (n : Node) : sizeOf n.children < sizeOf n := by
  cases n with
  | mk d ch k =>
    simp [Node.children]
    omega

theorem sizeOf_tail_lt [SizeOf α] (a : α) (l : List α) : sizeOf l < sizeOf (a :: l) := by
  simp only [List.cons.sizeOf_spec]
  omega

theorem sizeOf_head_lt [SizeOf α] (a : α) (l : List α) : sizeOf a < sizeOf (a :: l) := by
  simp only [List.cons.sizeOf_spec]
  omega

/-- DiffNodes, src/yaml.go lines 1052-1279.  Entries are produced in the
statement order of the Go function: nil / kind-mismatch short circuits,
then scalar value, style, the three comment classes, tag, then the
per-kind child comparisons.  (The two Go-map iterations of the mapping
branch are modelled in association-list order; see `mapUpsert`.) -/
def DiffNodes (oldNode newNode : Option Node) (path : String) : List DiffResult :=
  match oldNode, newNode with
  | none, none => []
  | none, some n =>
    [{ type := .DiffAdded, path := path, newValue := some (.ofValue n.value),
       newNode := some n, description := s!"Added node at {path}" }]
  | some o, none =>
    [{ type := .DiffRemoved, path := path, oldValue := some (.ofValue o.value),
       oldNode := some o, description := s!"Removed node at {path}" }]
  | some o, some n =>
    if o.kind ≠ n.kind then
      [{ type := .DiffModified, path := path, oldValue := some (.ofKind o.kind),
         newValue := some (.ofKind n.kind), oldNode := some o, newNode := some n,
         description := s!"Node type changed at {path}" }]
    else
      (if o.kind = .ScalarNode ∧ o.render ≠ n.render then
        let ov := o.render
        let nv := n.render
        [{ type := .DiffModified, path := path, oldValue := some (.ofValue o.value),
           newValue := some (.ofValue n.value), oldNode := some o, newNode := some n,
           description := s!"Value changed at {path} from \x27{ov}\x27 to \x27{nv}\x27" }]
      else []) ++
      (if o.style ≠ n.style then
        [{ type := .DiffStyleChanged, path := path, oldValue := some (.ofStyle o.style),
           newValue := some (.ofStyle n.style), oldNode := some o, newNode := some n,
           description := s!"Style changed at {path}" }]
      else []) ++
      (if o.headComment ≠ n.headComment then
        [{ type := .DiffCommentChanged, path := path, oldComment := o.headComment,
           newComment := n.headComment, oldNode := some o, newNode := some n,
           description := s!"Head comment changed at {path}" }]
      else []) ++
      (if o.lineComment ≠ n.lineComment then
        [{ type := .DiffCommentChanged, path := path, oldComment := [o.lineComment],
           newComment := [n.lineComment], oldNode := some o, newNode := some n,
           description := s!"Line comment changed at {path}" }]
      else []) ++
      (if o.footComment ≠ n.footComment then
        [{ type := .DiffCommentChanged, path := path, oldComment := o.footComment,
           newComment := n.footComment, oldNode := some o, newNode := some n,
           description := s!"Foot comment changed at {path}" }]
      else []) ++
      (if o.tag ≠ n.tag then
        let ot := o.tag
        let nt := n.tag
        [{ type := .DiffModified, path := path, oldValue := some (.ofTag o.tag),
           newValue := some (.ofTag n.tag), oldNode := some o, newNode := some n,
           description := s!"Tag changed at {path} from \x27{ot}\x27 to \x27{nt}\x27" }]
      else []) ++
      (if o.kind = .MappingNode then
        let oldKeys := buildKeyMap o.children []
        let newKeys := buildKeyMap n.children []
        (oldKeys.filterMap fun e =>
          if (mapLookup newKeys e.1).isSome then none
          else
            let k := e.1
            some { type := .DiffRemoved, path := s!"{path}.{k}",
                   oldValue := some (.ofValue e.2.value), oldNode := some e.2,
                   description := s!"Key \x27{k}\x27 removed" }) ++
        (newKeys.attach.flatMap fun ⟨e, he⟩ =>
          let k := e.1
          match hl : mapLookup oldKeys k with
          | some oldValue => DiffNodes (some oldValue) (some e.2) s!"{path}.{k}"
          | none =>
            [{ type := .DiffAdded, path := s!"{path}.{k}",
               newValue := some (.ofValue e.2.value), newNode := some e.2,
               description := s!"Key \x27{k}\x27 added" }])
      else []) ++
      (if o.kind = .SequenceNode then
        let minLen := min o.children.length n.children.length
        ((zipIdx 0 (o.children.take minLen) (n.children.take minLen)).attach.flatMap
          fun ⟨(i, oc, nc), he⟩ => DiffNodes (some oc) (some nc) s!"{path}[{i}]") ++
        ((idxFrom minLen (o.children.drop minLen)).map fun e =>
          let i := e.1
          { type := .DiffRemoved, path := s!"{path}[{i}]",
            oldValue := some (.ofValue e.2.value), oldNode := some e.2,
            description := s!"Array element at index {i} removed" }) ++
        ((idxFrom minLen (n.children.drop minLen)).map fun e =>
          let i := e.1
          { type := .DiffAdded, path := s!"{path}[{i}]",
            newValue := some (.ofValue e.2.value), newNode := some e.2,
            description := s!"Array element at index {i} added" })
      else []) ++
      (if o.kind = .DocumentNode then
        match ho : o.children, hn : n.children with
        | oc :: _, nc :: _ => DiffNodes (some oc) (some nc) path
        | _, _ => []
      else [])
termination_by sizeOf oldNode + sizeOf newNode
decreasing_by
  · rcases mapLookup_mem hl with ⟨s, hmem⟩
    rcases buildKeyMap_mem _ _ _ hmem with h' | h'
    · simp at h'
    · rcases buildKeyMap_mem _ _ _ he with h'' | h''
      · simp at h''
      · simp only [Option.some.sizeOf_spec]
        dsimp only at h'
        have h1 := children_sizeOf_lt base
        have h2 := children_sizeOf_lt overlay
        omega
  · rcases zipIdx_mem he with ⟨h1, h2⟩
    have h1' := sizeOf_lt_of_mem_children (List.mem_of_mem_take h1)
    have h2' := sizeOf_lt_of_mem_children (List.mem_of_mem_take h2)
    simp only [Option.some.sizeOf_spec]
    omega
  · have h1' := sizeOf_lt_of_mem_children (c := oc) (by rw [ho]; exact List.mem_cons_self _ _)
    have h2' := sizeOf_lt_of_mem_children (c := nc) (by rw [hn]; exact List.mem_cons_self _ _)
    simp only [Option.some.sizeOf_spec]
    omega

/-- Directive, src/yaml.go lines 103-106. -/
structure Directive where
  name : String
  value : String
deriving DecidableEq, Repr

/-- Document, src/yaml.go lines 96-101 (the anchor registry is an
association list standing in for the Go map, see `mapUpsert`). -/
structure Document where
  root : Option Node := none
  directives : List Directive := []
  version : String := ""
  anchors : List (String × Node) := []
deriving Repr

/-- NodeTree, src/yaml.go lines 108-112.  The `Current` pointer into the
document list is modelled as an index; `CurrentNode` is never read by any
modelled operation and is omitted. -/
structure NodeTree where
  documents : List Document := []
  current : Option Nat := none
deriving Repr

/-- DiffTrees, src/yaml.go lines 1295-1364 (both trees non-nil: the model
has no nil trees; the nil-tree guards of lines 1302-1326 produce plain
Added/Removed lists and are not needed by any claim). -/
def DiffTrees (oldTree newTree : NodeTree) : List DiffResult :=
  let maxDocs := max oldTree.documents.length newTree.documents.length
  (List.range maxDocs).flatMap fun i =>
    let docPath := s!"$[document:{i}]"
    match oldTree.documents.get? i, newTree.documents.get? i with
    | none, some newDoc =>
      [{ type := .DiffAdded, path := docPath, newNode := newDoc.root,
         description := s!"Document {i} added" }]
    | some oldDoc, none =>
      [{ type := .DiffRemoved, path := docPath, oldNode := oldDoc.root,
         description := s!"Document {i} removed" }]
    | some oldDoc, some newDoc => DiffNodes oldDoc.root newDoc.root docPath
    | none, none => []

/- ------------------------------------------------------------------ -/
/- Transform pipeline (src/advanced.go lines 561-920)                  -/
/- ------------------------------------------------------------------ -/

mutual

/-- Size of a node counting only the ownership edges (`Children`),
ignoring the `Key` back-reference.  Used as the termination measure of
the select traversal, which stores sibling copies into `Key` and would
otherwise grow the plain structural size. -/
def Node.csize : Node → Nat
  | .mk _ c _ => 1 + csizeList c
termination_by n => (sizeOf n, 0)
decreasing_by
  simp
  omega

def csizeList : List Node → Nat
  | [] => 0
  | n :: rest => Node.csize n + csizeList rest
termination_by l => (sizeOf l, 1)
decreasing_by
  all_goals simp
  all_goals omega

end

theorem csize_withKey (n : Node) (k : Option Node) : (n.withKey k).csize = n.csize := by
  cases n with
  | mk d c key => simp [Node.withKey, Node.csize]

theorem csize_pos (n : Node) : 0 < n.csize := by
  cases n with
  | mk d c key => simp [Node.csize]

theorem csizeList_children_lt (n : Node) : csizeList n.children < n.csize := by
  cases n with
  | mk d c key => simp [Node.children, Node.csize]

/-- In-place swap `pairs[i], pairs[j] = pairs[j], pairs[i]` on a list. -/
def lswap (l : List α) (i j : Nat) : List α :=
  match l.get? i, l.get? j with
  | some x, some y => (l.set i y).set j x
  | _, _ => l

/-- The inner loop of SortKeys, src/advanced.go lines 762-768:
`for j := i+1; j < len(pairs); j++ { if key_i > key_j { swap } }`.
The list length is invariant under `lswap`, so the loop bound is
precomputed as remaining-iteration fuel (`len - (i+1)`), making the
recursion structural.  Go compares strings bytewise; `String <` on the
(valid-UTF-8) Lean side orders identically. -/
def sortInner (kf : α → String) (dflt : α) (i : Nat) : Nat → Nat → List α → List α
  | 0, _, l => l
  | fuel + 1, j, l =>
    sortInner kf dflt i fuel (j + 1)
      (if kf (l.getD j dflt) < kf (l.getD i dflt) then lswap l i j else l)

/-- The outer loop of SortKeys, src/advanced.go lines 761-769. -/
def sortOuter (kf : α → String) (dflt : α) : Nat → Nat → List α → List α
  | 0, _, l => l
  | fuel + 1, i, l =>
    sortOuter kf dflt fuel (i + 1) (sortInner kf dflt i (l.length - (i + 1)) (i + 1) l)

/-- The pair sort of SortKeys, keyed by `fmt.Sprintf("%v", key.Value)`. -/
def sortPairsGo (ps : List (Node × Node)) : List (Node × Node) :=
  sortOuter (fun p => p.1.render) (defaultNode, defaultNode) ps.length 0 ps

/-- The sortKeys operation, src/advanced.go lines 745-779: extract the
key/value pairs of a mapping, sort them by rendered key text with the
exchange sort above, and rebuild the children. -/
def sortKeysGo (n : Node) : Node :=
  if n.kind = .MappingNode then
    n.withChildren (flattenPairs (sortPairsGo (goPairs n.children)))
  else n

/-- The pair filter of the removeKey operation, src/advanced.go lines
703-711: keep every pair except those whose scalar key renders to `key`
(a trailing unpaired child is dropped by the rebuild). -/
def removeKeyPairs (key : String) : List Node → List Node
  | k :: v :: rest =>
    (if k.kind ≠ .ScalarNode ∨ k.render ≠ key then [k, v] else []) ++ removeKeyPairs key rest
  | _ => []

/-- The removeKey operation, src/advanced.go lines 701-713. -/
def removeKeyGo (key : String) (n : Node) : Node :=
  if n.kind = .MappingNode then n.withChildren (removeKeyPairs key n.children) else n

/-- The key scan of the renameKey operation, src/advanced.go lines
726-732: overwrite the value of the FIRST scalar key rendering to
`oldKey` (the Go loop breaks) with the string `newKey`.  In Go this
mutates the key node in place; a value node whose Key pointer aliases it
observes the change through the alias, which a structural copy cannot —
no claim inspects a Key copy after renameKey (see the header comment). -/
def renameKeyChildren (oldKey newKey : String) : List Node → List Node
  | k :: v :: rest =>
    if k.kind = .ScalarNode ∧ k.render = oldKey then
      (k.withData { k.data with value := .vStr newKey }) :: v :: rest
    else k :: v :: renameKeyChildren oldKey newKey rest
  | other => other

/-- The renameKey operation, src/advanced.go lines 724-734. -/
def renameKeyGo (oldKey newKey : String) (n : Node) : Node :=
  if n.kind = .MappingNode then n.withChildren (renameKeyChildren oldKey newKey n.children)
  else n

mutual

/-- flattenRecursive, src/advanced.go lines 810-836: collect every
non-mapping leaf of a mapping under its dot-joined path (`result` is the
Go map, modelled as in `mapUpsert`). -/
def flattenRec (n : Node) (pfx : String) (acc : List (String × Node)) : List (String × Node) :=
  if n.kind ≠ .MappingNode then
    if pfx ≠ "" then mapUpsert acc pfx n else acc
  else flattenRecPairs n.children pfx acc
termination_by (sizeOf n, 0)
decreasing_by
  cases n with
  | mk d c k =>
    simp [Node.children]
    omega

/-- The pair loop of flattenRecursive, src/advanced.go lines 818-835. -/
def flattenRecPairs (cs : List Node) (pfx : String) (acc : List (String × Node)) :
    List (String × Node) :=
  match cs with
  | k :: v :: rest =>
    let acc' :=
      if k.kind = .ScalarNode then
        let key := k.render
        let newPfx := if pfx ≠ "" then pfx ++ "." ++ key else key
        if v.kind = .MappingNode then flattenRec v newPfx acc
        else mapUpsert acc newPfx v
      else acc
    flattenRecPairs rest pfx acc'
  | _ => acc
termination_by (sizeOf cs, 1)
decreasing_by
  all_goals simp_wf
  all_goals omega

end

/-- The flatten operation, src/advanced.go lines 789-807: replace a
mapping by a fresh single-level mapping whose pairs come from the
collected leaf map (Go iterates the map in unspecified order; list order
here, see `mapUpsert`).  The error return of AddKeyValue is ignored, as
in Go. -/
def flattenGo (n : Node) : Node :=
  if n.kind ≠ .MappingNode then n
  else
    (flattenRec n "" []).foldl
      (fun acc kv =>
        match acc.AddKeyValue (some (NewScalarNode (.vStr kv.1))) kv.2 with
        | .ok m => m
        | .error _ => acc)
      NewMappingNode

mutual

/-- selectNode, src/advanced.go lines 594-654, with the mutation of the
INPUT made explicit: the function returns `(result, post)` where `post`
is the state of the argument node after the call.  The only assignments
that hit the input are `valueNode.Key = keyNode` (line 623) and whatever
the recursive calls do below; `node.Clone()` results are fresh. -/
def selectNodeGo (n : Node) (p : Node → Bool) : Option Node × Node :=
  if n.kind = .DocumentNode then
    match hc : n.children with
    | c0 :: rest =>
      let r := selectNodeGo c0 p
      let post := n.withChildren (r.2 :: rest)
      match r.1 with
      | some f => (some (post.Clone.withChildren [f]), post)
      | none => (none, post)
    | [] => (none, n)
  else if n.kind = .MappingNode then
    let r := selectPairs p n.children
    let post := n.withChildren r.2
    if r.1.isEmpty then (none, post)
    else (some (post.Clone.withChildren r.1), post)
  else if p n then (some n, n)
  else (none, n)
termination_by (n.csize, 1)
decreasing_by
  · apply Prod.Lex.left
    have h2 := csizeList_children_lt n
    rw [hc] at h2
    simp [csizeList] at h2
    omega
  · apply Prod.Lex.left
    exact csizeList_children_lt n

/-- The key/value pair loop of selectNode, src/advanced.go lines 617-639,
returning `(newChildren, post-state of the traversed children)`.  Each
value node first receives its sibling key in `Key` (an input mutation),
then is kept whole if the predicate accepts it, recursively filtered if
it is a mapping, and dropped otherwise; a trailing unpaired child is left
in place, untouched and unselected. -/
def selectPairs (p : Node → Bool) (cs : List Node) : List Node × List Node :=
  match cs with
  | k :: v :: rest =>
    let v' := v.withKey (some k)
    let step : List Node × Node :=
      if p v' then ([k, v'], v')
      else if v'.kind = .MappingNode then
        let r := selectNodeGo v' p
        match r.1 with
        | some f => (if f.children.isEmpty then [] else [k, f], r.2)
        | none => ([], r.2)
      else ([], v')
    let rrest := selectPairs p rest
    (step.1 ++ rrest.1, k :: step.2 :: rrest.2)
  | other => ([], other)
termination_by (csizeList cs, 0)
decreasing_by
  · apply Prod.Lex.left
    have hk := csize_pos k
    have hv := csize_withKey v (some k)
    simp [csizeList, hv]
    omega
  · apply Prod.Lex.left
    simp [csizeList]
    have hk := csize_pos k
    have hv := csize_pos v
    omega

end

/-- A queued operation of the TransformDSL, src/advanced.go lines
583-808.  Only `select` and `map` carry caller-supplied functions; the Go
`map` function returns a possibly-nil node, hence `Option`.  No built-in
operation can return an error (each `operation` closure ends in
`return node, nil`), so the error channel of `Transform.operation` is
omitted. -/
inductive TransformOp where
  | select (p : Node → Bool)
  | map (f : Node → Option Node)
  | setValue (v : Value)
  | addComment (c : String)
  | removeKey (k : String)
  | renameKey (oldKey newKey : String)
  | sortKeys
  | flatten

/-- The scan of src/advanced.go lines 885-889: the predicate of the first
queued operation named "select", if any (only `Select` queues that
name). -/
def firstSelect : List TransformOp → Option (Node → Bool)
  | [] => none
  | .select p :: _ => some p
  | _ :: rest => firstSelect rest

/-- One operation applied to a (cloned) node: the `operation` closures of
src/advanced.go lines 587-590, 661-664, 673-678, 688-690, 701-713,
724-734, 745-779 and 789-806.  `none` is the Go nil result ("filtered
out"). -/
def runOp : TransformOp → Node → Option Node
  | .select p, n => (selectNodeGo n p).1
  | .map f, n => f n
  | .setValue v, n =>
    some (if n.kind = .ScalarNode then n.withData { n.data with value := v } else n)
  | .addComment c, n =>
    some (n.withData { n.data with headComment := n.headComment ++ [c] })
  | .removeKey k, n => some (removeKeyGo k n)
  | .renameKey oldKey newKey, n => some (renameKeyGo oldKey newKey n)
  | .sortKeys, n => some (sortKeysGo n)
  | .flatten, n => some (flattenGo n)

/-- The chain-order operation fold of applyToNode, src/advanced.go lines
893-902 (with no select present and no errors possible, only the nil
"filtered out" outcome remains). -/
def runOps : List TransformOp → Node → Option Node
  | [], n => some n
  | t :: rest, n =>
    match runOp t n with
    | none => none
    | some n' => runOps rest n'

mutual

/-- The OUTPUT of applyToNode, src/advanced.go lines 879-920.  A pipeline
containing a select short-circuits (lines 885-889); otherwise the
operations run on a clone and the children of the transformed clone are
processed recursively.  That recursion walks the TRANSFORMED node, whose
shape an arbitrary `map` function controls, so Go can diverge here; the
`fuel` argument makes the model total, `none` standing for a call that
exceeds the given recursion depth.  Every theorem below is either
fuel-generic or independent of the non-select branch. -/
def applyToNodeOut (fuel : Nat) (ts : List TransformOp) (n : Node) : Option (Option Node) :=
  match firstSelect ts with
  | some p => some (selectNodeGo n p).1
  | none =>
    match runOps ts n.Clone with
    | none => some none
    | some r =>
      if r.kind = .MappingNode ∨ r.kind = .SequenceNode ∨ r.kind = .DocumentNode then
        match fuel with
        | 0 => none
        | fuel' + 1 =>
          match applyChildrenOut fuel' ts r.children with
          | none => none
          | some cs => some (some (r.withChildren cs))
      else some (some r)
termination_by (fuel, 0)

/-- The child loop of applyToNode, src/advanced.go lines 905-917: each
child is transformed in turn, nil results are dropped. -/
def applyChildrenOut (fuel : Nat) (ts : List TransformOp) : List Node → Option (List Node)
  | [] => some []
  | c :: rest =>
    match applyToNodeOut fuel ts c with
    | none => none
    | some none => applyChildrenOut fuel ts rest
    | some (some c') => (applyChildrenOut fuel ts rest).map (c' :: ·)
termination_by cs => (fuel, 1 + cs.length)
decreasing_by
  all_goals first
    | exact Prod.Lex.left _ _ (by omega)
    | exact Prod.Lex.right _ (by simp only [List.length_cons]; omega)

end

/-- The POST-STATE of the input node of applyToNode.  With a select
queued, applyToNode hands the original node to selectNode (line 887),
whose input mutations `selectNodeGo` returns; without one, every
statement of the branch operates on `node.Clone()` and nodes derived from
it (lines 891-919), leaving the input untouched. -/
def applyToNodePost (ts : List TransformOp) (n : Node) : Node :=
  match firstSelect ts with
  | some p => (selectNodeGo n p).2
  | none => n

/-- The OUTPUT of TransformDSL.Apply, src/advanced.go lines 839-877: a
fresh tree whose documents carry the transformed roots (directives and
version copied, anchors fresh, `Current` left at the last document).
The nil-tree and nil-document error returns guard states that the model
cannot represent; `dsl.errors` is never appended to anywhere in the
repository, so that error branch is dead code. -/
def ApplyOut (fuel : Nat) (ts : List TransformOp) (tree : NodeTree) : Option NodeTree :=
  if tree.documents.isEmpty then some tree
  else
    (applyDocsOut fuel ts tree.documents).map
      (fun ds => { documents := ds, current := some (ds.length - 1) })
where
  applyDocsOut (fuel : Nat) (ts : List TransformOp) : List Document → Option (List Document)
    | [] => some []
    | d :: rest =>
      let newRoot? : Option (Option Node) :=
        match d.root with
        | none => some none
        | some r => applyToNodeOut fuel ts r
      match newRoot? with
      | none => none
      | some nr =>
        (applyDocsOut fuel ts rest).map
          (fun ds =>
            { root := nr, directives := d.directives, version := d.version,
              anchors := [] } :: ds)

/-- The POST-STATE of the input tree of TransformDSL.Apply: the document
list and its Document records are only read (a fresh `resultTree` and
fresh `newDoc`s are built), so the only input mutation is what
applyToNode does to each root. -/
def ApplyPost (ts : List TransformOp) (tree : NodeTree) : NodeTree :=
  { tree with
    documents := tree.documents.map (fun d => { d with root := d.root.map (applyToNodePost ts) }) }

/- ------------------------------------------------------------------ -/
/- Parsing: the repository-owned part of UnmarshalYAML                 -/
/- (src/yaml.go lines 855-1003).  The external yaml.v3 reader is a     -/
/- parameter (`yamlParse`), per spec section 6.                        -/
/- ------------------------------------------------------------------ -/

/-- The kinds of the external yaml.v3 generic node (`unsetKind` is the
zero value, which the conversion switch sends to its default arm). -/
inductive YKind where
  | documentNode
  | mappingNode
  | sequenceNode
  | scalarNode
  | aliasNode
  | unsetKind
deriving DecidableEq, Repr

/-- The styles of the external yaml.v3 generic node. -/
inductive YStyle where
  | defaultStyle
  | literalStyle
  | foldedStyle
  | singleQuotedStyle
  | doubleQuotedStyle
  | flowStyle
  | taggedStyle
deriving DecidableEq, Repr

/-- The scalar fields of a yaml.v3 generic node as consumed by
ConvertFromYAMLNode (spec section 6: kind, value-as-text, tag, anchor,
style, per-class comment text, content). -/
structure YNodeData where
  kind : YKind := .unsetKind
  value : String := ""
  tag : String := ""
  anchor : String := ""
  style : YStyle := .defaultStyle
  headComment : String := ""
  lineComment : String := ""
  footComment : String := ""
deriving DecidableEq, Repr

/-- A yaml.v3 generic parse node. -/
inductive YNode where
  | mk (data : YNodeData) (content : List YNode)
deriving Repr

def YNode.data : YNode → YNodeData
  | .mk d _ => d

def YNode.content : YNode → List YNode
  | .mk _ c => c

def YNode.kind (y : YNode) : YKind := y.data.kind
def YNode.value (y : YNode) : String := y.data.value
def YNode.tag (y : YNode) : String := y.data.tag

theorem content_sizeOf_lt (y : YNode) : sizeOf y.content < sizeOf y := by
  cases y with
  | mk d c =>
    simp [YNode.content]

/-- The kind switch of ConvertFromYAMLNode, src/yaml.go lines 1435-1449
(default arm: ScalarNode). -/
def convKind : YKind → NodeKind
  | .documentNode => .DocumentNode
  | .mappingNode => .MappingNode
  | .sequenceNode => .SequenceNode
  | .scalarNode => .ScalarNode
  | .aliasNode => .AliasNode
  | .unsetKind => .ScalarNode

/-- The style switch of ConvertFromYAMLNode, src/yaml.go lines 1509-1522
(yaml.SingleQuotedStyle maps to QuotedStyle; unmatched styles, including
yaml.TaggedStyle, fall to DefaultStyle). -/
def convStyle : YStyle → NodeStyle
  | .literalStyle => .LiteralStyle
  | .foldedStyle => .FoldedStyle
  | .singleQuotedStyle => .QuotedStyle
  | .doubleQuotedStyle => .DoubleQuotedStyle
  | .flowStyle => .FlowStyle
  | _ => .DefaultStyle

mutual

/-- ConvertFromYAMLNode, src/yaml.go lines 1430-1547.  The scalar value
decoding of lines 1454-1490 touches only the `Value` slot (tag-directed
coercion of the source text to bool/int/float/null, with literal
heuristics under `!!str`/empty tags); it is the `decode tag text`
parameter here, since no claim under verification depends on the decoded
value and the float path cannot be rendered faithfully anyway.  Structure
(children, key back-references, comments, style, tag, anchor) is
transcribed exactly. -/
def ConvertFromYAMLNode (decode : String → String → Value) (y : YNode) : Node :=
  let nodeKind := convKind y.kind
  let value : Value :=
    if nodeKind = .ScalarNode then decode y.tag y.value else .vStr y.value
  let base : Node := .mk
    { kind := nodeKind
      style := convStyle y.data.style
      tag := y.tag
      value := value
      anchor := y.data.anchor
      headComment :=
        if y.data.headComment ≠ "" then y.data.headComment.splitOn "\n" else []
      lineComment := y.data.lineComment
      footComment :=
        if y.data.footComment ≠ "" then y.data.footComment.splitOn "\n" else [] }
    [] none
  if nodeKind = .MappingNode then convertMapPairs decode y.content base
  else if nodeKind = .SequenceNode ∨ nodeKind = .DocumentNode then
    convertSeqChildren decode y.content base
  else base
termination_by (sizeOf y, 0)
decreasing_by
  all_goals exact Prod.Lex.left _ _ (content_sizeOf_lt y)

/-- The mapping-children loop of ConvertFromYAMLNode, src/yaml.go lines
1525-1538: convert each key/value pair (`i < len-1, i += 2`; a trailing
unpaired entry is dropped), force the literal string "null" for keys that
read `null` in the source, and append through AddKeyValue, ignoring its
error as Go does (it cannot fire: the accumulator is a mapping). -/
def convertMapPairs (decode : String → String → Value) (cs : List YNode) (acc : Node) : Node :=
  match cs with
  | yk :: yv :: rest =>
    let key0 := ConvertFromYAMLNode decode yk
    let key :=
      if key0.kind = .ScalarNode ∧ yk.value = "null" then
        key0.withData { key0.data with value := .vStr "null" }
      else key0
    let value := ConvertFromYAMLNode decode yv
    let acc' :=
      match acc.AddKeyValue (some key) value with
      | .ok m => m
      | .error _ => acc
    convertMapPairs decode rest acc'
  | _ => acc
termination_by (sizeOf cs, 1)
decreasing_by
  all_goals exact Prod.Lex.left _ _ (by simp only [List.cons.sizeOf_spec]; omega)

/-- The sequence/document-children loop of ConvertFromYAMLNode,
src/yaml.go lines 1539-1543. -/
def convertSeqChildren (decode : String → String → Value) (cs : List YNode) (acc : Node) :
    Node :=
  match cs with
  | [] => acc
  | y :: rest => convertSeqChildren decode rest (acc.AddChild (ConvertFromYAMLNode decode y))
termination_by (sizeOf cs, 1)
decreasing_by
  all_goals exact Prod.Lex.left _ _ (by simp only [List.cons.sizeOf_spec]; omega)

end

mutual

/-- The mapping well-formedness invariant, deeply: every MappingNode in
the children tree (the node itself included) has a Children list of even
length.  The Key back-reference is a copy of a node that also sits in
some Children list, so the children walk covers every real node. -/
def evenMaps (n : Node) : Bool :=
  (if n.kind = .MappingNode then decide (n.children.length % 2 = 0) else true) &&
    evenMapsList n.children
termination_by (sizeOf n, 0)
decreasing_by
  apply Prod.Lex.left
  exact children_sizeOf_lt n

def evenMapsList : List Node → Bool
  | [] => true
  | c :: rest => evenMaps c && evenMapsList rest
termination_by cs => (sizeOf cs, 1)
decreasing_by
  · exact Prod.Lex.left _ _ (sizeOf_head_lt _ _)
  · exact Prod.Lex.left _ _ (sizeOf_tail_lt _ _)

end

mutual

/-- The anchor-registry effect of resolveAnchors, src/yaml.go lines
979-1003: a pre-order walk registering every node carrying a non-empty
anchor name (RegisterAnchor, lines 687-693 — the Go map is modelled as in
`mapUpsert`).  The assignment of `node.Alias` for alias nodes (lines
990-997) stores a pointer into the same graph and is omitted together
with the Alias field, which no modelled operation reads. -/
def collectAnchors (n : Node) (acc : List (String × Node)) : List (String × Node) :=
  collectAnchorsList n.children (if n.anchor ≠ "" then mapUpsert acc n.anchor n else acc)
termination_by (sizeOf n, 0)
decreasing_by
  apply Prod.Lex.left
  exact children_sizeOf_lt n

def collectAnchorsList : List Node → List (String × Node) → List (String × Node)
  | [], acc => acc
  | c :: rest, acc => collectAnchorsList rest (collectAnchors c acc)
termination_by cs => (sizeOf cs, 1)
decreasing_by
  all_goals exact Prod.Lex.left _ _ (by simp only [List.cons.sizeOf_spec]; omega)

end

/-- One step of the line loop of splitDocuments, src/yaml.go lines
933-963, over the state (collected documents, current builder, inside-a-
document flag).  Go `strings.TrimSpace` trims Unicode space; `String.trim`
trims ASCII space (space, tab, CR, LF), identical on all inputs below. -/
def splitStep (st : List String × String × Bool) (line : String) : List String × String × Bool :=
  let trimmed := line.trim
  if trimmed = "---" then
    (if st.2.1.length > 0 then st.1 ++ [st.2.1] else st.1, "", true)
  else if trimmed = "..." then
    (if st.2.1.length > 0 then st.1 ++ [st.2.1] else st.1, "", false)
  else
    let inDoc := if ¬ st.2.2 ∧ st.1 = [] then true else st.2.2
    if inDoc then
      (st.1, st.2.1 ++ (if st.2.1.length > 0 then "\n" else "") ++ line, inDoc)
    else (st.1, st.2.1, inDoc)

/-- splitDocuments, src/yaml.go lines 927-976. -/
def splitDocuments (content : String) : List String :=
  let st := (content.splitOn "\n").foldl splitStep ([], "", false)
  let documents := if st.2.1.length > 0 then st.1 ++ [st.2.1] else st.1
  if documents = [] ∧ content.length > 0 then [content] else documents

/-- The trailing-blank-line strip of UnmarshalYAML, src/yaml.go lines
891-893. -/
def dropTrailingBlanks (ls : List String) : List String :=
  (ls.reverse.dropWhile (fun l => l.trim = "")).reverse

/-- tree.AddDocument (src/yaml.go lines 120-127) followed by the caller
filling in the new document: append and point `Current` at it. -/
def NodeTree.addNewDocument (t : NodeTree) (d : Document) : NodeTree :=
  { documents := t.documents ++ [d], current := some t.documents.length }

/-- The per-document loop of UnmarshalYAML, src/yaml.go lines 870-921:
a document region with no non-comment YAML line becomes a DocumentNode
root carrying the comment lines (trailing blanks stripped); anything else
goes to the external reader, whose failure is wrapped, then through
ConvertFromYAMLNode and the anchor registration walk. -/
def unmarshalDocs (yamlParse : String → Except String YNode)
    (decode : String → String → Value) :
    List String → NodeTree → Except String NodeTree
  | [], tree => .ok tree
  | docContent :: restDocs, tree =>
    let lines := docContent.splitOn "\n"
    let hasYAMLContent := lines.any fun l =>
      !(l.trim = "") && !(l.trim.startsWith "#") && !(l.trim = "---")
    let commentLines := lines.foldl
      (fun acc l => if l.trim ≠ "---" ∧ (l.trim ≠ "" ∨ acc ≠ []) then acc ++ [l] else acc) []
    if ¬ hasYAMLContent ∧ commentLines ≠ [] then
      let cl := dropTrailingBlanks commentLines
      let rootNode : Node := .mk { kind := .DocumentNode, headComment := cl } [] none
      unmarshalDocs yamlParse decode restDocs
        (tree.addNewDocument { root := some rootNode })
    else
      match yamlParse docContent with
      | .error e => .error ("failed to unmarshal document: " ++ e)
      | .ok y =>
        let rootNode := ConvertFromYAMLNode decode y
        unmarshalDocs yamlParse decode restDocs
          (tree.addNewDocument { root := some rootNode, anchors := collectAnchors rootNode [] })

/-- UnmarshalYAML, src/yaml.go lines 856-924: empty input yields one
document with a nil root and no error; otherwise the input is split into
document regions and each is processed by `unmarshalDocs`.  The external
yaml.v3 reader and the scalar decoding are parameters (see the section
header and `ConvertFromYAMLNode`). -/
def UnmarshalYAML (yamlParse : String → Except String YNode)
    (decode : String → String → Value) (data : String) : Except String NodeTree :=
  if data.length = 0 then
    .ok { documents := [{ root := none }], current := some 0 }
  else
    unmarshalDocs yamlParse decode (splitDocuments data) { documents := [], current := none }

/- ------------------------------------------------------------------ -/
/- Concrete inputs used by counterexamples and witnesses               -/
/- ------------------------------------------------------------------ -/

/-- Scalar node carrying a string. -/
def scalarStr (s : String) : Node := NewScalarNode (.vStr s)

/-- Scalar node carrying an int64. -/
def scalarInt (i : Int) : Node := NewScalarNode (.vInt i)

/-- Mapping built through Node.AddKeyValue, the way ConvertFromYAMLNode
and callers of the public API build mappings. -/
def mapOf (ps : List (Node × Node)) : Node :=
  ps.foldl
    (fun acc p =>
      match acc.AddKeyValue (some p.1) p.2 with
      | .ok m => m
      | .error _ => acc)
    NewMappingNode

/-- The mapping {a: 1, b: 2} of the claim C2 instance. -/
def c2base : Node := mapOf [(scalarStr "a", scalarInt 1), (scalarStr "b", scalarInt 2)]

/-- The mapping {b: 3, c: 4} of the claim C2 instance. -/
def c2overlay : Node := mapOf [(scalarStr "b", scalarInt 3), (scalarStr "c", scalarInt 4)]

/-- The mapping {a: 1, b: 3, c: 4} the claim C2 instance expects. -/
def c2expected : Node :=
  mapOf [(scalarStr "a", scalarInt 1), (scalarStr "b", scalarInt 3), (scalarStr "c", scalarInt 4)]

/-- An empty mapping node. -/
def c2nsBase : Node := NewMappingNode

/-- A mapping with a single pair whose KEY is itself a (non-scalar)
mapping node — legal YAML, where complex keys are allowed. -/
def c2nsOverlay : Node :=
  NewMappingNode.withChildren [NewMappingNode, (scalarInt 1).withKey (some NewMappingNode)]

/-- Base mapping for C3: {b: 2} with a head comment on the VALUE node. -/
def c3base : Node :=
  mapOf [(scalarStr "b",
    (scalarInt 2).withData { kind := .ScalarNode, value := .vInt 2, headComment := ["# note"] })]

/-- Overlay mapping for C3: {b: 3}, no comments anywhere. -/
def c3overlay : Node := mapOf [(scalarStr "b", scalarInt 3)]

/-- Key node "b" carrying a head comment, for the C3 witness. -/
def c3wKey : Node :=
  (scalarStr "b").withData { kind := .ScalarNode, value := .vStr "b", headComment := ["# note"] }

/-- Base mapping for the C3 witness: {b: 2} with the head comment on the
KEY node, the place yaml.v3 attaches a comment written above a pair. -/
def c3wBase : Node := mapOf [(c3wKey, scalarInt 2)]

/-- Mapping {a: 1} whose VALUE node has no Key back-reference yet (a
parsed tree before any select ran), for the C6 counterexample. -/
def c6root : Node := NewMappingNode.withChildren [scalarStr "a", scalarInt 1]

/-- One-document tree around `c6root`. -/
def c6tree : NodeTree := { documents := [{ root := some c6root }], current := some 0 }

/-- Mapping with two pairs under the same rendered key "b" (values 1
and 2, in that order) followed by key "a" (value 3), for the C7
stability counterexample. -/
def c7map : Node := NewMappingNode.withChildren
  [scalarStr "b", scalarInt 1, scalarStr "b", scalarInt 2, scalarStr "a", scalarInt 3]

/- ------------------------------------------------------------------ -/
/- Theorems                                                            -/
/- ------------------------------------------------------------------ -/

/-- Strong induction on the plain structural size of a node. -/
def Node.sizeRecAux {P : Node → Prop}
    (h : ∀ n, (∀ m : Node, sizeOf m < sizeOf n → P m) → P n) : ∀ n, P n :=
  fun n => h n (fun m _ => Node.sizeRecAux h m)
termination_by n => sizeOf n
decreasing_by assumption

/-- Induction over a node through its children and Key back-reference. -/
theorem Node.memInduction {P : Node → Prop}
    (h : ∀ d c k, (∀ x ∈ c, P x) → (∀ x, k = some x → P x) → P (.mk d c k)) :
    ∀ n, P n := by
  apply Node.sizeRecAux
  intro n ih
  cases n with
  | mk d c k =>
    apply h
    · intro x hx
      exact ih x (sizeOf_lt_of_mem_children (n := .mk d c k) (by simpa [Node.children] using hx))
    · intro x hx
      subst hx
      apply ih
      simp
      omega

/-- On pure trees the deep copy Node.Clone is the structural identity:
it reproduces every field, cloning children and the Key back-reference
recursively (src/yaml.go lines 267-317 copy each field verbatim). -/
theorem Clone_eq : ∀ n : Node, n.Clone = n := by
  apply Node.memInduction
  intro d c k ihc ihk
  rw [Node.Clone.eq_def]
  dsimp only
  have hch : c.attach.map (fun x => x.1.Clone) = c := by
    have h1 : c.attach.map (fun x => x.1.Clone) = c.attach.map Subtype.val :=
      List.map_congr_left (fun x hx => ihc x.1 x.2)
    rw [h1, List.attach_map_subtype_val]
  cases k with
  | none => rw [hch]
  | some x =>
    dsimp only
    rw [hch, ihk x rfl]

theorem kind_withChildren (n : Node) (cs : List Node) : (n.withChildren cs).kind = n.kind := by
  cases n
  rfl

theorem children_withChildren (n : Node) (cs : List Node) :
    (n.withChildren cs).children = cs := by
  cases n
  rfl

theorem kind_withKey (n : Node) (k : Option Node) : (n.withKey k).kind = n.kind := by
  cases n
  rfl

theorem render_withKey (n : Node) (k : Option Node) : (n.withKey k).render = n.render := by
  cases n
  rfl

theorem headComment_withKey (n : Node) (k : Option Node) :
    (n.withKey k).headComment = n.headComment := by
  cases n
  rfl

theorem value_withKey (n : Node) (k : Option Node) : (n.withKey k).value = n.value := by
  cases n
  rfl

theorem overwriteKeyComments_kind (bk ok : Node) :
    (overwriteKeyComments bk ok).kind = bk.kind := by
  cases bk
  rfl

theorem overwriteKeyComments_render (bk ok : Node) :
    (overwriteKeyComments bk ok).render = bk.render := by
  cases bk
  rfl

theorem overwriteKeyComments_head_of_empty (bk ok : Node) (h : ok.headComment = []) :
    (overwriteKeyComments bk ok).headComment = bk.headComment := by
  cases bk with
  | mk d c k =>
    simp [overwriteKeyComments, Node.withData, Node.headComment, Node.data]
    intro hne
    exact absurd h hne

/-- Two-step recursion over a list, matching the `i += 2` loops. -/
def pairListRec {P : List α → Prop} (hnil : P []) (hone : ∀ a, P [a])
    (hcons : ∀ a b l, P l → P (a :: b :: l)) : ∀ l, P l
  | [] => hnil
  | [a] => hone a
  | a :: b :: l => hcons a b l (pairListRec hnil hone hcons l)

theorem flattenPairs_append (ps qs : List (Node × Node)) :
    flattenPairs (ps ++ qs) = flattenPairs ps ++ flattenPairs qs := by
  induction ps with
  | nil => rfl
  | cons p rest ih =>
    cases p with
    | mk k v => simp [flattenPairs, ih]

theorem flattenPairs_length (ps : List (Node × Node)) :
    (flattenPairs ps).length = 2 * ps.length := by
  induction ps with
  | nil => rfl
  | cons p rest ih =>
    cases p with
    | mk k v =>
      simp [flattenPairs, ih]
      omega

theorem goPairs_flattenPairs (ps : List (Node × Node)) : goPairs (flattenPairs ps) = ps := by
  induction ps with
  | nil => rfl
  | cons p rest ih =>
    cases p with
    | mk k v => simp [flattenPairs, goPairs, ih]

theorem flattenPairs_goPairs (cs : List Node) (h : cs.length % 2 = 0) :
    flattenPairs (goPairs cs) = cs := by
  induction cs using pairListRec with
  | hnil => rfl
  | hone a => simp at h
  | hcons a b l ih =>
    simp [goPairs, flattenPairs]
    apply ih
    simp [List.length_cons] at h
    omega

theorem goPairs_length_le (cs : List Node) : 2 * (goPairs cs).length ≤ cs.length := by
  induction cs using pairListRec with
  | hnil => simp [goPairs]
  | hone a => simp [goPairs]
  | hcons a b l ih =>
    simp [goPairs]
    omega

theorem flattenPairs_getD_even (ps : List (Node × Node)) (j : Nat) (hj : j < ps.length)
    (d : Node) (dp : Node × Node) :
    (flattenPairs ps).getD (2 * j) d = (ps.getD j dp).1 := by
  induction ps generalizing j with
  | nil => simp at hj
  | cons p rest ih =>
    cases p with
    | mk k v =>
      cases j with
      | zero => simp [flattenPairs]
      | succ j' =>
        have h2 : 2 * (j' + 1) = (2 * j') + 1 + 1 := by omega
        simp only [flattenPairs, h2, List.getD_cons_succ]
        exact ih j' (by simpa using hj)

theorem flattenPairs_getD_odd (ps : List (Node × Node)) (j : Nat) (hj : j < ps.length)
    (d : Node) (dp : Node × Node) :
    (flattenPairs ps).getD (2 * j + 1) d = (ps.getD j dp).2 := by
  induction ps generalizing j with
  | nil => simp at hj
  | cons p rest ih =>
    cases p with
    | mk k v =>
      cases j with
      | zero => simp [flattenPairs]
      | succ j' =>
        have h2 : 2 * (j' + 1) + 1 = (2 * j' + 1) + 1 + 1 := by omega
        simp only [flattenPairs, h2, List.getD_cons_succ]
        exact ih j' (by simpa using hj)

theorem flattenPairs_set_even (ps : List (Node × Node)) (j : Nat) (hj : j < ps.length)
    (x : Node) (dp : Node × Node) :
    (flattenPairs ps).set (2 * j) x = flattenPairs (ps.set j (x, (ps.getD j dp).2)) := by
  induction ps generalizing j with
  | nil => simp at hj
  | cons p rest ih =>
    cases p with
    | mk k v =>
      cases j with
      | zero => simp [flattenPairs]
      | succ j' =>
        have h2 : 2 * (j' + 1) = (2 * j') + 1 + 1 := by omega
        simp only [flattenPairs, h2, List.set_cons_succ, List.getD_cons_succ]
        rw [ih j' (by simpa using hj)]

theorem flattenPairs_set_odd (ps : List (Node × Node)) (j : Nat) (hj : j < ps.length)
    (y : Node) (dp : Node × Node) :
    (flattenPairs ps).set (2 * j + 1) y = flattenPairs (ps.set j ((ps.getD j dp).1, y)) := by
  induction ps generalizing j with
  | nil => simp at hj
  | cons p rest ih =>
    cases p with
    | mk k v =>
      cases j with
      | zero => simp [flattenPairs]
      | succ j' =>
        have h2 : 2 * (j' + 1) + 1 = (2 * j' + 1) + 1 + 1 := by omega
        simp only [flattenPairs, h2, List.set_cons_succ, List.getD_cons_succ]
        rw [ih j' (by simpa using hj)]

theorem find?_map_upd (m : List (String × α)) (k : String) (v : α) :
    (m.map (fun e => if e.1 = k then (k, v) else e)).find? (fun e => e.1 = k) =
      (m.find? (fun e => e.1 = k)).map (fun _ => (k, v)) := by
  induction m with
  | nil => rfl
  | cons e' m' ih =>
    by_cases h : e'.1 = k
    · rw [List.map_cons, if_pos h, List.find?_cons_of_pos _ (by simp),
        List.find?_cons_of_pos _ (by simpa using h)]
      rfl
    · rw [List.map_cons, if_neg h, List.find?_cons_of_neg _ (by simpa using h),
        List.find?_cons_of_neg _ (by simpa using h)]
      exact ih

theorem mapLookup_upsert_self (m : List (String × α)) (k : String) (v : α) :
    mapLookup (mapUpsert m k v) k = some v := by
  unfold mapUpsert mapLookup
  split
  · rename_i hany
    rw [find?_map_upd]
    rcases List.any_eq_true.mp hany with ⟨e, he, hek⟩
    have hs : (m.find? (fun e => e.1 = k)).isSome :=
      List.find?_isSome.mpr ⟨e, he, hek⟩
    cases hfind : m.find? (fun e => e.1 = k) with
    | none => rw [hfind] at hs; simp at hs
    | some e0 => simp
  · rename_i hany
    have hnone : m.find? (fun e => e.1 = k) = none := by
      apply List.find?_eq_none.mpr
      intro x hx
      intro hpx
      exact hany (List.any_eq_true.mpr ⟨x, hx, hpx⟩)
    rw [List.find?_append, hnone]
    simp [List.find?_cons]

theorem find?_map_upd_ne (m : List (String × α)) (k s : String) (v : α) (hne : s ≠ k) :
    (m.map (fun e => if e.1 = k then (k, v) else e)).find? (fun e => e.1 = s) =
      m.find? (fun e => e.1 = s) := by
  induction m with
  | nil => rfl
  | cons e' m' ih =>
    by_cases h : e'.1 = k
    · rw [List.map_cons, if_pos h, List.find?_cons_of_neg _ (by simp [Ne.symm hne]),
        List.find?_cons_of_neg _ (by simp [h, Ne.symm hne])]
      exact ih
    · by_cases h2 : e'.1 = s
      · rw [List.map_cons, if_neg h, List.find?_cons_of_pos _ (by simpa using h2),
          List.find?_cons_of_pos _ (by simpa using h2)]
      · rw [List.map_cons, if_neg h, List.find?_cons_of_neg _ (by simpa using h2),
          List.find?_cons_of_neg _ (by simpa using h2)]
        exact ih

theorem mapLookup_upsert_ne (m : List (String × α)) (k s : String) (v : α) (hne : s ≠ k) :
    mapLookup (mapUpsert m k v) s = mapLookup m s := by
  unfold mapUpsert mapLookup
  split
  · rw [find?_map_upd_ne m k s v hne]
  · rw [List.find?_append]
    have h1 : List.find? (fun e => e.1 = s) [(k, v)] = none := by
      simp [List.find?_cons, Ne.symm hne]
    rw [h1]
    cases m.find? (fun e => e.1 = s) <;> rfl

theorem mapLookup_nil (s : String) : mapLookup ([] : List (String × α)) s = none := rfl

theorem buildBaseKeys_lookup (cs : List Node) :
    ∀ (i : Nat) (m : List (String × Nat)) (s : String),
    (∀ p ∈ goPairs cs, p.1.kind = .ScalarNode) →
    (((goPairs cs).map (fun p => p.1.render)).Nodup) →
    mapLookup (buildBaseKeys i cs m) s =
      match (goPairs cs).findIdx? (fun p => p.1.render == s) with
      | some j => some (i + 2 * j)
      | none => mapLookup m s := by
  induction cs using pairListRec with
  | hnil =>
    intro i m s hsc hnd
    simp [buildBaseKeys, goPairs, List.findIdx?_nil]
  | hone a =>
    intro i m s hsc hnd
    simp [buildBaseKeys, goPairs, List.findIdx?_nil]
  | hcons k v rest ih =>
    intro i m s hsc hnd
    have hksc : k.kind = .ScalarNode := hsc (k, v) (by simp [goPairs])
    have hscRest : ∀ p ∈ goPairs rest, p.1.kind = .ScalarNode := by
      intro p hp
      exact hsc p (by simp [goPairs, hp])
    have hnd0 : (k.render :: (goPairs rest).map (fun p => p.1.render)).Nodup := by
      simpa [goPairs] using hnd
    have hnotin : k.render ∉ (goPairs rest).map (fun p => p.1.render) :=
      (List.nodup_cons.mp hnd0).1
    have hnd' : ((goPairs rest).map (fun p => p.1.render)).Nodup :=
      (List.nodup_cons.mp hnd0).2
    rw [show buildBaseKeys i (k :: v :: rest) m =
          buildBaseKeys (i + 2) rest (mapUpsert m k.render i) by
        rw [buildBaseKeys]
        rw [if_pos hksc]]
    rw [ih (i + 2) (mapUpsert m k.render i) s hscRest hnd']
    by_cases hks : k.render = s
    · have hfind : (goPairs rest).findIdx? (fun p => p.1.render == s) = none := by
        rw [List.findIdx?_eq_none_iff]
        intro p hp
        simp only [beq_eq_false_iff_ne, ne_eq]
        intro hc
        exact hnotin (by
          rw [hks, ← hc]
          exact List.mem_map_of_mem (fun p => p.1.render) hp)
      have hfind2 : (goPairs (k :: v :: rest)).findIdx? (fun p => p.1.render == s) = some 0 := by
        simp only [goPairs, List.findIdx?_cons]
        rw [if_pos (by simpa using hks)]
      rw [hfind, hfind2]
      dsimp only
      subst hks
      rw [mapLookup_upsert_self]
      norm_num
    · have hfind2 : (goPairs (k :: v :: rest)).findIdx? (fun p => p.1.render == s) =
          ((goPairs rest).findIdx? (fun p => p.1.render == s)).map (· + 1) := by
        simp only [goPairs, List.findIdx?_cons]
        rw [if_neg (by simpa using hks)]
        exact List.findIdx?_succ
      rw [hfind2]
      cases hrest : (goPairs rest).findIdx? (fun p => p.1.render == s) with
      | none =>
        simp only [Option.map_none']
        rw [mapLookup_upsert_ne m k.render s i (Ne.symm hks)]
      | some j =>
        simp only [Option.map_some']
        congr 1
        omega

theorem getD_set_self (l : List α) (j : Nat) (hj : j < l.length) (x d : α) :
    (l.set j x).getD j d = x := by
  rw [List.getD_eq_getElem _ _ (by simpa using hj)]
  exact List.getElem_set_self _

/-- Stage 1 of the C2 correspondence: the child-index loop
`mergeOverlayPairs` is the pair-level fold `mergePairStep` whenever the
key map sends every key to an even child index below the (pair) bound
`bLen` and the accumulated children have at least `bLen` pairs. -/
theorem mergeOverlayPairs_pairs (baseKeys : List (String × Nat)) (plook : String → Option Nat)
    (bLen : Nat)
    (hrel : ∀ s, mapLookup baseKeys s = (plook s).map (2 * ·))
    (hlt : ∀ s j, plook s = some j → j < bLen) :
    ∀ (ocs : List Node) (cur : List (Node × Node)), bLen ≤ cur.length →
    mergeOverlayPairs baseKeys ocs (flattenPairs cur) =
      flattenPairs ((goPairs ocs).foldl (mergePairStep plook) cur) := by
  intro ocs
  induction ocs using pairListRec with
  | hnil =>
    intro cur hc
    simp [mergeOverlayPairs, goPairs]
  | hone a =>
    intro cur hc
    simp [mergeOverlayPairs, goPairs]
  | hcons k v rest ih =>
    intro cur hc
    rw [mergeOverlayPairs]
    simp only [goPairs, List.foldl_cons]
    by_cases hk : k.kind = .ScalarNode
    · rw [if_pos hk, hrel k.render]
      cases hpl : plook k.render with
      | none =>
        simp only [Option.map_none']
        have hstep : mergePairStep plook cur (k, v) =
            cur ++ [(k.Clone, v.Clone.withKey (some k.Clone))] := by
          unfold mergePairStep
          rw [if_pos hk, hpl]
        rw [hstep]
        have happ : flattenPairs cur ++ [k.Clone, v.Clone.withKey (some k.Clone)] =
            flattenPairs (cur ++ [(k.Clone, v.Clone.withKey (some k.Clone))]) := by
          rw [flattenPairs_append]
          rfl
        rw [happ]
        exact ih _ (by simp; omega)
      | some j =>
        simp only [Option.map_some']
        have hjlt : j < cur.length := Nat.lt_of_lt_of_le (hlt _ _ hpl) hc
        have hbv : (flattenPairs cur).getD (2 * j + 1) defaultNode =
            (cur.getD j (defaultNode, defaultNode)).2 :=
          flattenPairs_getD_odd cur j hjlt _ _
        have hbk : (flattenPairs cur).getD (2 * j) defaultNode =
            (cur.getD j (defaultNode, defaultNode)).1 :=
          flattenPairs_getD_even cur j hjlt _ _
        rw [hbv, hbk]
        by_cases hmm : (cur.getD j (defaultNode, defaultNode)).2.kind = .MappingNode ∧
            v.kind = .MappingNode
        · rw [if_pos hmm]
          have hstep : mergePairStep plook cur (k, v) =
              cur.set j ((cur.getD j (defaultNode, defaultNode)).1,
                MergeNonNil (cur.getD j (defaultNode, defaultNode)).2 v) := by
            unfold mergePairStep
            rw [if_pos hk, hpl]
            simp only
            rw [if_pos hmm]
          rw [flattenPairs_set_odd cur j hjlt _ (defaultNode, defaultNode), ← hstep]
          exact ih _ (by rw [hstep]; simpa using hc)
        · rw [if_neg hmm]
          have hstep : mergePairStep plook cur (k, v) =
              cur.set j (overwriteKeyComments (cur.getD j (defaultNode, defaultNode)).1 k,
                v.Clone.withKey (some (cur.getD j (defaultNode, defaultNode)).1.Clone)) := by
            unfold mergePairStep
            rw [if_pos hk, hpl]
            simp only
            rw [if_neg hmm]
          rw [flattenPairs_set_even cur j hjlt _ (defaultNode, defaultNode)]
          rw [flattenPairs_set_odd _ j (by simpa using hjlt) _ (defaultNode, defaultNode)]
          rw [getD_set_self cur j hjlt]
          rw [List.set_set]
          rw [← hstep]
          exact ih _ (by rw [hstep]; simpa using hc)
    · rw [if_neg hk]
      have hstep : mergePairStep plook cur (k, v) = cur := by
        unfold mergePairStep
        rw [if_neg hk]
      rw [hstep]
      exact ih _ hc

theorem findIdx?_some_facts (l : List α) (p : α → Bool) :
    ∀ (j : Nat) (d : α), l.findIdx? p = some j → j < l.length ∧ p (l.getD j d) = true := by
  induction l with
  | nil =>
    intro j d h
    simp [List.findIdx?_nil] at h
  | cons a xs ih =>
    intro j d h
    rw [List.findIdx?_cons] at h
    by_cases hp : p a = true
    · rw [if_pos hp] at h
      injection h with h
      subst h
      exact ⟨by simp, by simpa using hp⟩
    · rw [if_neg hp, List.findIdx?_succ] at h
      cases hx : xs.findIdx? p with
      | none => rw [hx] at h; simp at h
      | some j' =>
        rw [hx] at h
        simp only [Option.map_some'] at h
        injection h with h
        subst h
        rcases ih j' d hx with ⟨h1, h2⟩
        exact ⟨by simpa using Nat.succ_lt_succ h1, by simpa using h2⟩

theorem getD_map_lt (l : List α) (f : α → β) (j : Nat) (hj : j < l.length) (d : β) (d' : α) :
    (l.map f).getD j d = f (l.getD j d') := by
  rw [List.getD_eq_getElem _ _ (by simpa using hj), List.getD_eq_getElem _ _ hj,
    List.getElem_map]

theorem map_set_of_congr (l : List α) (f g : α → β) (j : Nat) (hj : j < l.length) (y : β)
    (hag : ∀ i (hi : i < l.length), i ≠ j → f l[i] = g l[i]) (hy : y = g l[j]) :
    (l.map f).set j y = l.map g := by
  apply List.ext_getElem
  · simp
  · intro n h1 h2
    simp only [List.length_set, List.length_map] at h1 h2
    by_cases hn : n = j
    · subst hn
      rw [List.getElem_set_self _, List.getElem_map]
      exact hy
    · rw [List.getElem_set_ne (by omega), List.getElem_map, List.getElem_map]
      exact hag n h2 hn

theorem mergeShared_append_nomatch (P : List (Node × Node)) (r p : Node × Node)
    (h : ¬ r.1.render = p.1.render) :
    mergeShared (P ++ [r]) p = mergeShared P p := by
  unfold mergeShared
  rw [List.find?_append]
  cases hP : P.find? (fun q => q.1.render == p.1.render) with
  | some q => rfl
  | none =>
    have h1 : List.find? (fun q => q.1.render == p.1.render) [r] = none := by
      rw [List.find?_eq_none]
      intro x hx
      rcases List.mem_singleton.mp hx with rfl
      simpa using h
    rw [h1]
    rfl

theorem mergeShared_append_match (P : List (Node × Node)) (r p : Node × Node)
    (hnoP : P.find? (fun q => q.1.render == p.1.render) = none)
    (hm : r.1.render = p.1.render) :
    mergeShared (P ++ [r]) p =
      (if p.2.kind = .MappingNode ∧ r.2.kind = .MappingNode then (p.1, MergeNonNil p.2 r.2)
       else (overwriteKeyComments p.1 r.1, r.2.Clone.withKey (some p.1.Clone))) := by
  unfold mergeShared
  rw [List.find?_append, hnoP]
  have h1 : List.find? (fun q => q.1.render == p.1.render) [r] = some r := by
    rw [List.find?_cons_of_pos _ (by simpa using hm)]
  rw [h1]
  rfl

theorem mergeShared_of_no_match (P : List (Node × Node)) (p : Node × Node)
    (hno : ∀ q ∈ P, ¬ q.1.render = p.1.render) : mergeShared P p = p := by
  unfold mergeShared
  have h1 : P.find? (fun q => q.1.render == p.1.render) = none := by
    rw [List.find?_eq_none]
    intro x hx
    simpa using hno x hx
  rw [h1]
  rw [Clone_eq, Clone_eq]

theorem oOnlyPart_append_one (bPairs P : List (Node × Node)) (r : Node × Node) :
    oOnlyPart bPairs (P ++ [r]) =
      oOnlyPart bPairs P ++
        (if bPairs.all (fun p => !(p.1.render == r.1.render)) then
          [(r.1.Clone, r.2.Clone.withKey (some r.1.Clone))]
         else []) := by
  unfold oOnlyPart
  rw [List.filter_append, List.map_append]
  congr 1
  by_cases hall : bPairs.all (fun p => !(p.1.render == r.1.render))
  · simp [List.filter_singleton, hall]
  · rw [Bool.not_eq_true] at hall
    simp [List.filter_singleton, hall]

/-- Stage 2 of the C2 correspondence: folding `mergePairStep` over
overlay pairs with pairwise-distinct scalar rendered keys computes
exactly the key-wise union the claim describes. -/
theorem foldPairs_spec (bPairs : List (Node × Node))
    (hbnd : (bPairs.map (fun p => p.1.render)).Nodup) :
    ∀ (R P : List (Node × Node)),
    (∀ p ∈ R, p.1.kind = .ScalarNode) →
    (((P ++ R).map (fun p => p.1.render)).Nodup) →
    R.foldl (mergePairStep (fun s => bPairs.findIdx? (fun p => p.1.render == s)))
        (bPairs.map (mergeShared P) ++ oOnlyPart bPairs P) =
      bPairs.map (mergeShared (P ++ R)) ++ oOnlyPart bPairs (P ++ R) := by
  intro R
  induction R with
  | nil =>
    intro P hsc hnd
    simp
  | cons r R' ih =>
    intro P hsc hnd
    rw [List.foldl_cons]
    have hrsc : r.1.kind = .ScalarNode := hsc r (by simp)
    have hndPr : ((P ++ [r]).map (fun p => p.1.render)).Nodup := by
      have h0 := hnd
      rw [show P ++ r :: R' = (P ++ [r]) ++ R' by simp] at h0
      rw [List.map_append] at h0
      exact (List.nodup_append.mp h0).1
    have hrnotinP : ∀ q ∈ P, ¬ q.1.render = r.1.render := by
      intro q hq hc
      have h1 : r.1.render ∈ P.map (fun p => p.1.render) :=
        List.mem_map.mpr ⟨q, hq, hc⟩
      have h2 := hndPr
      rw [List.map_append] at h2
      rcases List.nodup_append.mp h2 with ⟨-, -, hdisj⟩
      exact hdisj h1 (by simp)
    have hstep : mergePairStep (fun s => bPairs.findIdx? (fun p => p.1.render == s))
        (bPairs.map (mergeShared P) ++ oOnlyPart bPairs P) r =
        bPairs.map (mergeShared (P ++ [r])) ++ oOnlyPart bPairs (P ++ [r]) := by
      cases hfi : bPairs.findIdx? (fun p => p.1.render == r.1.render) with
      | none =>
        have hstep0 : mergePairStep (fun s => bPairs.findIdx? (fun p => p.1.render == s))
            (bPairs.map (mergeShared P) ++ oOnlyPart bPairs P) r =
            (bPairs.map (mergeShared P) ++ oOnlyPart bPairs P) ++
              [(r.1.Clone, r.2.Clone.withKey (some r.1.Clone))] := by
          unfold mergePairStep
          rw [if_pos hrsc]
          beta_reduce
          rw [hfi]
        have hnomatch : ∀ p ∈ bPairs, ¬ p.1.render = r.1.render := by
          intro p hp
          have h3 := List.findIdx?_eq_none_iff.mp hfi p hp
          simpa using h3
        have hmap : bPairs.map (mergeShared (P ++ [r])) = bPairs.map (mergeShared P) := by
          apply List.map_congr_left
          intro p hp
          exact mergeShared_append_nomatch P r p (fun hc => hnomatch p hp hc.symm)
        have hall : bPairs.all (fun p => !(p.1.render == r.1.render)) := by
          rw [List.all_eq_true]
          intro p hp
          simpa using hnomatch p hp
        rw [hstep0, oOnlyPart_append_one, if_pos hall, hmap, List.append_assoc]
      | some j =>
        have hfacts := findIdx?_some_facts bPairs _ j (defaultNode, defaultNode) hfi
        have hjlt : j < bPairs.length := hfacts.1
        have hjmatch : (bPairs.getD j (defaultNode, defaultNode)).1.render = r.1.render := by
          have h3 := hfacts.2
          simpa using h3
        have hgetj : (bPairs.getD j (defaultNode, defaultNode)) = bPairs[j] := by
          rw [List.getD_eq_getElem _ _ hjlt]
        have hjfindP : P.find?
            (fun q => q.1.render == (bPairs.getD j (defaultNode, defaultNode)).1.render) =
            none := by
          rw [List.find?_eq_none]
          intro x hx
          simp only [beq_eq_false_iff_ne, ne_eq, Bool.not_eq_true]
          rw [hjmatch]
          simpa using hrnotinP x hx
        have hsharedj : mergeShared P (bPairs.getD j (defaultNode, defaultNode)) =
            bPairs.getD j (defaultNode, defaultNode) := by
          apply mergeShared_of_no_match
          intro q hq hc
          rw [hjmatch] at hc
          exact hrnotinP q hq hc
        have hcurj : (bPairs.map (mergeShared P) ++ oOnlyPart bPairs P).getD j
            (defaultNode, defaultNode) = bPairs.getD j (defaultNode, defaultNode) := by
          rw [List.getD_append _ _ _ _ (by simpa using hjlt)]
          rw [getD_map_lt bPairs _ j hjlt _ (defaultNode, defaultNode)]
          exact hsharedj
        have hstep0 : mergePairStep (fun s => bPairs.findIdx? (fun p => p.1.render == s))
            (bPairs.map (mergeShared P) ++ oOnlyPart bPairs P) r =
            (if (bPairs.getD j (defaultNode, defaultNode)).2.kind = .MappingNode ∧
                r.2.kind = .MappingNode then
              (bPairs.map (mergeShared P) ++ oOnlyPart bPairs P).set j
                ((bPairs.getD j (defaultNode, defaultNode)).1,
                  MergeNonNil (bPairs.getD j (defaultNode, defaultNode)).2 r.2)
            else
              (bPairs.map (mergeShared P) ++ oOnlyPart bPairs P).set j
                (overwriteKeyComments (bPairs.getD j (defaultNode, defaultNode)).1 r.1,
                  r.2.Clone.withKey
                    (some (bPairs.getD j (defaultNode, defaultNode)).1.Clone))) := by
          unfold mergePairStep
          rw [if_pos hrsc]
          beta_reduce
          rw [hfi]
          dsimp only
          rw [hcurj]
        have hne_off : ∀ i (hi : i < bPairs.length), i ≠ j →
            mergeShared P bPairs[i] = mergeShared (P ++ [r]) bPairs[i] := by
          intro i hi hij
          refine (mergeShared_append_nomatch P r _ ?_).symm
          intro hc
          have him : i < (bPairs.map (fun p => p.1.render)).length := by simpa using hi
          have hjm : j < (bPairs.map (fun p => p.1.render)).length := by simpa using hjlt
          have hij2 : (bPairs.map (fun p => p.1.render))[i] =
              (bPairs.map (fun p => p.1.render))[j] := by
            rw [List.getElem_map, List.getElem_map]
            rw [← hc, ← hgetj, hjmatch]
          exact hij (hbnd.getElem_inj_iff.mp hij2)
        have hall_false : ¬ (bPairs.all (fun p => !(p.1.render == r.1.render)) = true) := by
          rw [List.all_eq_true]
          intro hall
          have h4 := hall (bPairs.getD j (defaultNode, defaultNode)) (by
            rw [hgetj]
            exact List.getElem_mem _)
          rw [hjmatch] at h4
          simp at h4
        have hsharedj2 : mergeShared (P ++ [r]) bPairs[j] =
            (if (bPairs.getD j (defaultNode, defaultNode)).2.kind = .MappingNode ∧
                r.2.kind = .MappingNode then
              ((bPairs.getD j (defaultNode, defaultNode)).1,
                MergeNonNil (bPairs.getD j (defaultNode, defaultNode)).2 r.2)
            else
              (overwriteKeyComments (bPairs.getD j (defaultNode, defaultNode)).1 r.1,
                r.2.Clone.withKey
                  (some (bPairs.getD j (defaultNode, defaultNode)).1.Clone))) := by
          rw [← hgetj]
          rw [mergeShared_append_match P r _ hjfindP hjmatch.symm]
        rw [hstep0, oOnlyPart_append_one, if_neg hall_false, List.append_nil]
        by_cases hmm : (bPairs.getD j (defaultNode, defaultNode)).2.kind = .MappingNode ∧
            r.2.kind = .MappingNode
        · rw [if_pos hmm]
          rw [List.set_append_left _ _ (by simpa using hjlt)]
          congr 1
          apply map_set_of_congr _ _ _ j hjlt
          · intro i hi hij
            exact hne_off i hi hij
          · rw [hsharedj2, if_pos hmm]
        · rw [if_neg hmm]
          rw [List.set_append_left _ _ (by simpa using hjlt)]
          congr 1
          apply map_set_of_congr _ _ _ j hjlt
          · intro i hi hij
            exact hne_off i hi hij
          · rw [hsharedj2, if_neg hmm]
    rw [hstep]
    have ih2 := ih (P ++ [r]) (fun p hp => hsc p (by simp [hp]))
      (by rw [List.append_assoc]; simpa using hnd)
    simpa using ih2

theorem mergeShared_nil (p : Node × Node) : mergeShared [] p = p := by
  apply mergeShared_of_no_match
  intro q hq
  simp at hq

/-- The key-wise union characterization of the mapping branch of
MergeNodes: for mapping nodes whose keys are all scalar with pairwise
distinct rendered texts (and an even base children list), the merge
computes exactly the union described by claim C2. -/
theorem MergeNonNil_mapping_spec (b o : Node)
    (hb : b.kind = .MappingNode) (ho : o.kind = .MappingNode)
    (hbe : b.children.length % 2 = 0)
    (hbsc : ∀ p ∈ goPairs b.children, p.1.kind = .ScalarNode)
    (hosc : ∀ p ∈ goPairs o.children, p.1.kind = .ScalarNode)
    (hbnd : ((goPairs b.children).map (fun p => p.1.render)).Nodup)
    (hond : ((goPairs o.children).map (fun p => p.1.render)).Nodup) :
    MergeNonNil b o = mergeMappingClaim b o := by
  unfold MergeNonNil
  rw [if_pos ⟨hb, ho⟩]
  dsimp only
  rw [Clone_eq]
  have hrel : ∀ s, mapLookup (buildBaseKeys 0 b.children []) s =
      ((goPairs b.children).findIdx? (fun p => p.1.render == s)).map (2 * ·) := by
    intro s
    rw [buildBaseKeys_lookup b.children 0 [] s hbsc hbnd]
    cases h : (goPairs b.children).findIdx? (fun p => p.1.render == s) with
    | none => simp [mapLookup_nil]
    | some j => simp
  have hlt : ∀ s j, (goPairs b.children).findIdx? (fun p => p.1.render == s) =
      some j → j < (goPairs b.children).length := by
    intro s j h
    exact (findIdx?_some_facts _ _ j (defaultNode, defaultNode) h).1
  have hmain := mergeOverlayPairs_pairs (buildBaseKeys 0 b.children [])
    (fun s => (goPairs b.children).findIdx? (fun p => p.1.render == s))
    (goPairs b.children).length hrel hlt o.children (goPairs b.children) (le_refl _)
  rw [flattenPairs_goPairs _ hbe] at hmain
  rw [hmain]
  have hstart : goPairs b.children =
      (goPairs b.children).map (mergeShared []) ++ oOnlyPart (goPairs b.children) [] := by
    have h1 : (goPairs b.children).map (mergeShared []) = goPairs b.children := by
      have h2 : (goPairs b.children).map (mergeShared []) = (goPairs b.children).map id :=
        List.map_congr_left (fun p hp => mergeShared_nil p)
      rw [h2, List.map_id]
    rw [h1]
    simp [oOnlyPart]
  have hfold := foldPairs_spec (goPairs b.children) hbnd (goPairs o.children) [] hosc
    (by simpa using hond)
  rw [← hstart] at hfold
  rw [hfold]
  unfold mergeMappingClaim
  rw [flattenPairs_append]
  simp

/-- C2 counterexample: as universally stated over ALL pairs of Mapping
nodes, the key-union claim fails — an overlay pair whose key is not a
Scalar node is silently dropped by MergeNodes (src/yaml.go line 490
guards on `overlayKey.Kind == ScalarNode`), not appended.  Here the base
is an empty mapping and the overlay holds one pair with a mapping-typed
key: the merge returns an empty mapping, while the claimed key-wise union
would append the pair. -/
theorem mergeNodes_drops_nonscalar_overlay_key :
    MergeNodes (some c2nsBase) (some c2nsOverlay) = some (MergeNonNil c2nsBase c2nsOverlay) ∧
    (MergeNonNil c2nsBase c2nsOverlay).children.length = 0 ∧
    (mergeMappingClaim c2nsBase c2nsOverlay).children.length = 2 ∧
    MergeNonNil c2nsBase c2nsOverlay ≠ mergeMappingClaim c2nsBase c2nsOverlay := by
  have h0 : (MergeNonNil c2nsBase c2nsOverlay).children.length = 0 := by
    simp [MergeNonNil, mergeOverlayPairs, c2nsBase, c2nsOverlay, NewMappingNode, NewNode,
      Node.kind, Node.data, Node.children, Node.withChildren, Node.withKey, Clone_eq]
  have h2 : (mergeMappingClaim c2nsBase c2nsOverlay).children.length = 2 := by
    simp [mergeMappingClaim, c2nsBase, c2nsOverlay, NewMappingNode, NewNode, goPairs,
      oOnlyPart, flattenPairs, Node.kind, Node.data, Node.children, Node.withChildren,
      Node.withKey, Clone_eq, scalarInt, NewScalarNode, Node.render, Value.render]
  refine ⟨rfl, h0, h2, fun hEq => ?_⟩
  rw [hEq] at h0
  rw [h0] at h2
  exact absurd h2 (by omega)

/-- C2 (amended): for Mapping nodes whose keys are all Scalar nodes with
pairwise-distinct rendered texts (and an even-length base children list),
MergeNodes is the key-wise union of the claim: base-only keys kept
(cloned) in base order, shared keys taking overlay's value (merged
recursively only when both values are Mappings), overlay-only pairs
appended (cloned) in overlay order after all base pairs.  Overlay pairs
with non-scalar keys are dropped instead of appended, which is what the
counterexample exhibits and the added hypotheses exclude. -/
theorem mergeNodes_key_union (b o : Node)
    (hb : b.kind = .MappingNode) (ho : o.kind = .MappingNode)
    (hbe : b.children.length % 2 = 0)
    (hbsc : ∀ p ∈ goPairs b.children, p.1.kind = .ScalarNode)
    (hosc : ∀ p ∈ goPairs o.children, p.1.kind = .ScalarNode)
    (hbnd : ((goPairs b.children).map (fun p => p.1.render)).Nodup)
    (hond : ((goPairs o.children).map (fun p => p.1.render)).Nodup) :
    MergeNodes (some b) (some o) = some (mergeMappingClaim b o) := by
  show some (MergeNonNil b o) = some (mergeMappingClaim b o)
  rw [MergeNonNil_mapping_spec b o hb ho hbe hbsc hosc hbnd hond]

/-- C2 witness: the claim instance — base {a: 1, b: 2}, overlay
{b: 3, c: 4} — merges to {a: 1, b: 3, c: 4}. -/
theorem mergeNodes_key_union_witness :
    c2base.kind = .MappingNode ∧ c2overlay.kind = .MappingNode ∧
    MergeNodes (some c2base) (some c2overlay) = some c2expected := by
  refine ⟨rfl, rfl, ?_⟩
  rw [mergeNodes_key_union c2base c2overlay rfl rfl (by decide) (by decide) (by decide)
    (by decide) (by decide)]
  congr 1
  simp [mergeMappingClaim, c2base, c2overlay, c2expected, mapOf, NewMappingNode, NewNode,
    NewScalarNode, scalarStr, scalarInt, Node.AddKeyValue, Node.kind, Node.data, Node.children,
    Node.withChildren, Node.withKey, Clone_eq, goPairs, flattenPairs, oOnlyPart, mergeShared,
    overwriteKeyComments, Node.render, Value.render, Node.value, Node.headComment,
    Node.lineComment, Node.footComment, Node.withData]

theorem find?_unique {l : List α} {p : α → Bool} {x : α} (hx : x ∈ l) (hpx : p x = true)
    (huniq : ∀ y ∈ l, p y = true → y = x) : l.find? p = some x := by
  induction l with
  | nil => simp at hx
  | cons a l' ih =>
    by_cases hpa : p a = true
    · rw [List.find?_cons_of_pos _ hpa]
      rw [huniq a (List.mem_cons_self _ _) hpa]
    · rw [List.find?_cons_of_neg _ (by simpa using hpa)]
      rcases List.mem_cons.mp hx with rfl | hx'
      · exact absurd hpx hpa
      · exact ih hx' (fun y hy hpy => huniq y (List.mem_cons_of_mem _ hy) hpy)

theorem nodup_render_unique {ps : List (Node × Node)}
    (hnd : (ps.map (fun p => p.1.render)).Nodup)
    {p q : Node × Node} (hp : p ∈ ps) (hq : q ∈ ps) (hr : p.1.render = q.1.render) : p = q := by
  rcases List.getElem_of_mem hp with ⟨i, hi, hip⟩
  rcases List.getElem_of_mem hq with ⟨j, hj, hjq⟩
  have him : i < (ps.map (fun p => p.1.render)).length := by simpa using hi
  have hjm : j < (ps.map (fun p => p.1.render)).length := by simpa using hj
  have heq : (ps.map (fun p => p.1.render))[i] =
      (ps.map (fun p => p.1.render))[j] := by
    rw [List.getElem_map, List.getElem_map, hip, hjq]
    exact hr
  have hij : i = j := hnd.getElem_inj_iff.mp heq
  subst hij
  rw [← hip, ← hjq]

theorem getMapValue_go_flatten (key : String) (ps : List (Node × Node)) :
    Node.GetMapValue.go key (flattenPairs ps) =
      (ps.find? (fun p => decide (p.1.kind = .ScalarNode ∧ p.1.render = key))).map
        Prod.snd := by
  induction ps with
  | nil => rfl
  | cons p rest ih =>
    cases p with
    | mk k v =>
      by_cases h : k.kind = .ScalarNode ∧ k.render = key
      · rw [show flattenPairs ((k, v) :: rest) = k :: v :: flattenPairs rest from rfl]
        rw [Node.GetMapValue.go]
        rw [if_pos h, List.find?_cons_of_pos _ (by simpa using h)]
        rfl
      · rw [show flattenPairs ((k, v) :: rest) = k :: v :: flattenPairs rest from rfl]
        rw [Node.GetMapValue.go]
        rw [if_neg h, List.find?_cons_of_neg _ (by simpa using h)]
        exact ih

theorem getMapKeyNode_go_flatten (key : String) (ps : List (Node × Node)) :
    Node.getMapKeyNode.go key (flattenPairs ps) =
      (ps.find? (fun p => decide (p.1.kind = .ScalarNode ∧ p.1.render = key))).map
        Prod.fst := by
  induction ps with
  | nil => rfl
  | cons p rest ih =>
    cases p with
    | mk k v =>
      by_cases h : k.kind = .ScalarNode ∧ k.render = key
      · rw [show flattenPairs ((k, v) :: rest) = k :: v :: flattenPairs rest from rfl]
        rw [Node.getMapKeyNode.go]
        rw [if_pos h, List.find?_cons_of_pos _ (by simpa using h)]
        rfl
      · rw [show flattenPairs ((k, v) :: rest) = k :: v :: flattenPairs rest from rfl]
        rw [Node.getMapKeyNode.go]
        rw [if_neg h, List.find?_cons_of_neg _ (by simpa using h)]
        exact ih

theorem mergeShared_key_kind (oPairs : List (Node × Node)) (p : Node × Node) :
    (mergeShared oPairs p).1.kind = p.1.kind := by
  unfold mergeShared
  cases oPairs.find? (fun q => q.1.render == p.1.render) with
  | none => simp [Clone_eq]
  | some q =>
    dsimp only
    split
    · rfl
    · exact overwriteKeyComments_kind _ _

theorem mergeShared_key_render (oPairs : List (Node × Node)) (p : Node × Node) :
    (mergeShared oPairs p).1.render = p.1.render := by
  unfold mergeShared
  cases oPairs.find? (fun q => q.1.render == p.1.render) with
  | none => simp [Clone_eq]
  | some q =>
    dsimp only
    split
    · rfl
    · exact overwriteKeyComments_render _ _

/-- The unique pair of the claimed union carrying a given shared base
key, together with what `mergeShared` does to it: the central step shared
by the C3 statements. -/
theorem mergeMappingClaim_find (b o : Node)
    (hb : b.kind = .MappingNode) (ho : o.kind = .MappingNode)
    (hbe : b.children.length % 2 = 0)
    (hbsc : ∀ p ∈ goPairs b.children, p.1.kind = .ScalarNode)
    (hosc : ∀ p ∈ goPairs o.children, p.1.kind = .ScalarNode)
    (hbnd : ((goPairs b.children).map (fun p => p.1.render)).Nodup)
    (hond : ((goPairs o.children).map (fun p => p.1.render)).Nodup)
    (bk bv ok ov : Node)
    (hbp : (bk, bv) ∈ goPairs b.children)
    (hop : (ok, ov) ∈ goPairs o.children)
    (hk : ok.render = bk.render) :
    ((goPairs b.children).map (mergeShared (goPairs o.children)) ++
        oOnlyPart (goPairs b.children) (goPairs o.children)).find?
        (fun p => decide (p.1.kind = .ScalarNode ∧ p.1.render = bk.render)) =
      some (mergeShared (goPairs o.children) (bk, bv)) := by
  apply find?_unique
  · exact List.mem_append_left _ (List.mem_map_of_mem _ hbp)
  · have h1 := mergeShared_key_kind (goPairs o.children) (bk, bv)
    have h2 := mergeShared_key_render (goPairs o.children) (bk, bv)
    simp only [decide_eq_true_eq]
    exact ⟨by rw [h1]; exact hbsc (bk, bv) hbp, by rw [h2]⟩
  · intro y hy hpy
    simp only [decide_eq_true_eq] at hpy
    rcases List.mem_append.mp hy with hy' | hy'
    · rcases List.mem_map.mp hy' with ⟨p, hp, hpe⟩
      have hrr : p.1.render = bk.render := by
        rw [← mergeShared_key_render (goPairs o.children) p, hpe]
        exact hpy.2
      have hpeq : p = (bk, bv) := nodup_render_unique hbnd hp hbp hrr
      rw [← hpe, hpeq]
    · exfalso
      unfold oOnlyPart at hy'
      rcases List.mem_map.mp hy' with ⟨q, hq, hqe⟩
      rcases List.mem_filter.mp hq with ⟨hqmem, hqall⟩
      have hbkq := List.all_eq_true.mp hqall (bk, bv) hbp
      simp only [Bool.not_eq_eq_eq_not, Bool.not_true, beq_eq_false_iff_ne, ne_eq] at hbkq
      apply hbkq
      rw [← hpy.2, ← hqe]
      simp [Clone_eq, render_withKey]

/-- C3 (amended): with the same key/distinctness hypotheses as C2, if
base and overlay both carry scalar key k with values not both mappings,
the merged pair for k keeps the BASE KEY node (with its head comment,
when the overlay key carries none) while the VALUE becomes a clone of
overlay's value carrying overlay's own comments — a head comment sitting
on base's value node is NOT retained. -/
theorem mergeNodes_key_comment_preserved (b o : Node)
    (hb : b.kind = .MappingNode) (ho : o.kind = .MappingNode)
    (hbe : b.children.length % 2 = 0)
    (hbsc : ∀ p ∈ goPairs b.children, p.1.kind = .ScalarNode)
    (hosc : ∀ p ∈ goPairs o.children, p.1.kind = .ScalarNode)
    (hbnd : ((goPairs b.children).map (fun p => p.1.render)).Nodup)
    (hond : ((goPairs o.children).map (fun p => p.1.render)).Nodup)
    (bk bv ok ov : Node)
    (hbp : (bk, bv) ∈ goPairs b.children)
    (hop : (ok, ov) ∈ goPairs o.children)
    (hk : ok.render = bk.render)
    (hnm : ¬ (bv.kind = .MappingNode ∧ ov.kind = .MappingNode))
    (hokh : ok.headComment = []) :
    (MergeNonNil b o).getMapKeyNode bk.render = some (overwriteKeyComments bk ok) ∧
    (overwriteKeyComments bk ok).headComment = bk.headComment ∧
    (MergeNonNil b o).GetMapValue bk.render = some (ov.Clone.withKey (some bk.Clone)) ∧
    (ov.Clone.withKey (some bk.Clone)).value = ov.value ∧
    (ov.Clone.withKey (some bk.Clone)).headComment = ov.headComment := by
  have hfo : (goPairs o.children).find? (fun q => q.1.render == bk.render) = some (ok, ov) := by
    apply find?_unique hop (by simpa using hk)
    intro y hy hpy
    apply nodup_render_unique hond hy hop
    have h1 : y.1.render = bk.render := by simpa using hpy
    rw [h1, ← hk]
  have hms : mergeShared (goPairs o.children) (bk, bv) =
      (overwriteKeyComments bk ok, ov.Clone.withKey (some bk.Clone)) := by
    unfold mergeShared
    dsimp only
    rw [hfo]
    dsimp only
    rw [if_neg hnm]
  have hspec := MergeNonNil_mapping_spec b o hb ho hbe hbsc hosc hbnd hond
  have hcomb : mergeMappingClaim b o =
      b.withChildren (flattenPairs ((goPairs b.children).map (mergeShared (goPairs o.children)) ++
        oOnlyPart (goPairs b.children) (goPairs o.children))) := by
    unfold mergeMappingClaim
    rw [flattenPairs_append]
  have hkind : (mergeMappingClaim b o).kind = .MappingNode := by
    rw [hcomb, kind_withChildren, hb]
  have hfind := mergeMappingClaim_find b o hb ho hbe hbsc hosc hbnd hond bk bv ok ov hbp hop hk
  have hval : (MergeNonNil b o).GetMapValue bk.render =
      some (ov.Clone.withKey (some bk.Clone)) := by
    rw [hspec, hcomb]
    unfold Node.GetMapValue
    rw [if_neg (by rw [kind_withChildren, hb]; simp)]
    rw [children_withChildren]
    rw [getMapValue_go_flatten]
    rw [hfind, hms]
    rfl
  have hkey : (MergeNonNil b o).getMapKeyNode bk.render =
      some (overwriteKeyComments bk ok) := by
    rw [hspec, hcomb]
    unfold Node.getMapKeyNode
    rw [if_neg (by rw [kind_withChildren, hb]; simp)]
    rw [children_withChildren]
    rw [getMapKeyNode_go_flatten]
    rw [hfind, hms]
    rfl
  refine ⟨hkey, overwriteKeyComments_head_of_empty bk ok hokh, hval, ?_, ?_⟩
  · rw [value_withKey, Clone_eq]
  · rw [headComment_withKey, Clone_eq]

/-- C3 counterexample: base {b: 2} with head comment "# note" on the
VALUE node of b, overlay {b: 3} without comments.  The merged value node
for b carries overlay's value 3 but an EMPTY head comment: base's
value-node head comment is dropped, contradicting "retains base's head
comment". -/
theorem mergeNodes_value_head_comment_lost :
    ((MergeNonNil c3base c3overlay).GetMapValue "b").map Node.headComment = some [] ∧
    ((MergeNonNil c3base c3overlay).GetMapValue "b").map Node.render = some "3" ∧
    (c3base.GetMapValue "b").map Node.headComment = some ["# note"] ∧
    ¬ ((MergeNonNil c3base c3overlay).GetMapValue "b").map Node.headComment =
        some ["# note"] := by
  have h1 : MergeNonNil c3base c3overlay =
      mergeMappingClaim c3base c3overlay :=
    MergeNonNil_mapping_spec _ _ rfl rfl (by decide) (by decide) (by decide) (by decide)
      (by decide)
  rw [h1]
  refine ⟨?_, ?_, ?_, ?_⟩ <;>
    (simp [mergeMappingClaim, c3base, c3overlay, mapOf, NewMappingNode, NewNode, NewScalarNode,
      scalarStr, scalarInt, Node.AddKeyValue, Node.kind, Node.data, Node.children,
      Node.withChildren, Node.withKey, Clone_eq, goPairs, flattenPairs, oOnlyPart, mergeShared,
      overwriteKeyComments, Node.render, Value.render, Node.value, Node.headComment,
      Node.lineComment, Node.footComment, Node.withData, Node.GetMapValue,
      Node.GetMapValue.go] ; try rfl)

/-- C3 witness: base {b: 2} with the head comment on the KEY node for b
and a comment-free overlay {b: 3}: the merged pair keeps the head comment
(on the key) and takes value 3. -/
theorem mergeNodes_key_comment_preserved_witness :
    ((MergeNonNil c3wBase c3overlay).getMapKeyNode "b").map Node.headComment =
        some ["# note"] ∧
    ((MergeNonNil c3wBase c3overlay).GetMapValue "b").map Node.render = some "3" := by
  have h := mergeNodes_key_comment_preserved c3wBase c3overlay rfl rfl (by decide) (by decide)
    (by decide) (by decide) (by decide)
    c3wKey ((scalarInt 2).withKey (some c3wKey))
    (scalarStr "b") ((scalarInt 3).withKey (some (scalarStr "b")))
    (by rw [show goPairs c3wBase.children =
          [(c3wKey, (scalarInt 2).withKey (some c3wKey))] from rfl]
        exact List.mem_singleton_self _)
    (by rw [show goPairs c3overlay.children =
          [(scalarStr "b", (scalarInt 3).withKey (some (scalarStr "b")))] from rfl]
        exact List.mem_singleton_self _)
    rfl (by decide) rfl
  rcases h with ⟨hkey, hhead, hval, hvv, hvh⟩
  rw [show c3wKey.render = "b" from rfl] at hkey hval
  constructor
  · rw [hkey]
    simp only [Option.map_some']
    rw [hhead]
    rfl
  · rw [hval]
    simp only [Option.map_some']
    rw [render_withKey, Clone_eq, render_withKey]
    rfl

/- ------------------------------------------------------------------ -/
/- C4: diff of a tree with itself                                      -/
/- ------------------------------------------------------------------ -/

theorem map_fst_upd (m : List (String × α)) (k : String) (v : α) :
    (m.map (fun e => if e.1 = k then (k, v) else e)).map Prod.fst = m.map Prod.fst := by
  rw [List.map_map]
  apply List.map_congr_left
  intro e _
  by_cases h : e.1 = k
  · simp [Function.comp, h]
  · simp [Function.comp, h]

theorem mapUpsert_keys_nodup {m : List (String × α)} (h : (m.map Prod.fst).Nodup)
    (k : String) (v : α) : ((mapUpsert m k v).map Prod.fst).Nodup := by
  unfold mapUpsert
  split
  · rw [map_fst_upd]
    exact h
  · rename_i hany
    rw [List.map_append]
    simp only [List.map_cons, List.map_nil]
    rw [List.nodup_append]
    refine ⟨h, List.nodup_singleton _, ?_⟩
    intro a ha hmem
    have hak : a = k := by simpa using hmem
    subst hak
    rcases List.mem_map.mp ha with ⟨e, he, hek⟩
    exact hany (List.any_eq_true.mpr ⟨e, he, by simp [hek]⟩)

theorem buildKeyMap_keys_nodup : ∀ (cs : List Node) (m : List (String × Node)),
    (m.map Prod.fst).Nodup → ((buildKeyMap cs m).map Prod.fst).Nodup
  | [], m, h => by simpa [buildKeyMap] using h
  | [k], m, h => by simpa [buildKeyMap] using h
  | k :: v :: rest, m, h => by
    rw [buildKeyMap]
    apply buildKeyMap_keys_nodup
    split
    · exact mapUpsert_keys_nodup h _ _
    · exact h

theorem nodup_key_unique {m : List (String × α)} (hnd : (m.map Prod.fst).Nodup)
    {p q : String × α} (hp : p ∈ m) (hq : q ∈ m) (h : p.1 = q.1) : p = q := by
  rcases List.getElem_of_mem hp with ⟨i, hi, hip⟩
  rcases List.getElem_of_mem hq with ⟨j, hj, hjq⟩
  have him : i < (m.map Prod.fst).length := by simpa using hi
  have hjm : j < (m.map Prod.fst).length := by simpa using hj
  have heq : (m.map Prod.fst)[i] =
      (m.map Prod.fst)[j] := by
    rw [List.getElem_map, List.getElem_map, hip, hjq]
    exact h
  have hij : i = j := hnd.getElem_inj_iff.mp heq
  subst hij
  rw [← hip, ← hjq]

theorem mapLookup_eq_of_mem {m : List (String × α)} (hnd : (m.map Prod.fst).Nodup)
    {k : String} {v : α} (hmem : (k, v) ∈ m) : mapLookup m k = some v := by
  unfold mapLookup
  have huniq : ∀ y ∈ m, (fun (e : String × α) => decide (e.1 = k)) y = true → y = (k, v) :=
    fun y hy hpy => nodup_key_unique hnd hy hmem (by simpa using hpy)
  rw [find?_unique hmem (by simp) huniq]
  rfl

theorem zipIdx_self : ∀ (l : List α) {i j : Nat} {a b : α}, (j, a, b) ∈ zipIdx i l l → a = b
  | [], i, j, a, b, h => by simp [zipIdx] at h
  | x :: xs, i, j, a, b, h => by
    simp only [zipIdx, List.mem_cons] at h
    rcases h with h | h
    · obtain ⟨h1, h2, h3⟩ : j = i ∧ a = x ∧ b = x := by simpa using h
      rw [h2, h3]
    · exact zipIdx_self xs h

theorem diffNodes_self_aux : ∀ (fuel : Nat) (n : Node), sizeOf n < fuel →
    ∀ path, DiffNodes (some n) (some n) path = [] := by
  intro fuel
  induction fuel with
  | zero =>
    intro n hsz
    omega
  | succ f ih =>
    intro n hsz path
    rw [DiffNodes.eq_def]
    dsimp only
    rw [if_neg (by simp), if_neg (by simp), if_neg (by simp), if_neg (by simp),
        if_neg (by simp), if_neg (by simp), if_neg (by simp)]
    simp only [List.nil_append]
    cases hk : n.kind with
    | DocumentNode =>
      rw [if_neg (by decide), if_neg (by decide), if_pos rfl]
      simp only [List.nil_append]
      split
      · rename_i oc l nc l' ho hcn
        have hocnc : oc = nc := by
          rw [ho] at hcn
          exact (List.cons.inj hcn).1
        subst hocnc
        apply ih
        have := sizeOf_lt_of_mem_children (n := n) (c := oc)
          (by rw [ho]; exact List.mem_cons_self _ _)
        omega
      all_goals rfl
    | MappingNode =>
      rw [if_pos rfl, if_neg (by decide), if_neg (by decide)]
      simp only [List.append_nil]
      have hnd := buildKeyMap_keys_nodup n.children [] (by simp)
      rw [List.append_eq_nil]
      constructor
      · rw [List.filterMap_eq_nil_iff]
        intro e he
        have hl : mapLookup (buildKeyMap n.children []) e.1 = some e.2 :=
          mapLookup_eq_of_mem hnd (by simpa using he)
        simp [hl]
      · rw [List.flatMap_eq_nil_iff]
        intro x hx
        obtain ⟨e, he⟩ := x
        have hl : mapLookup (buildKeyMap n.children []) e.1 = some e.2 :=
          mapLookup_eq_of_mem hnd (by simpa using he)
        dsimp only
        split
        · rename_i oldValue heq
          rw [hl] at heq
          have hov : oldValue = e.2 := (Option.some.inj heq).symm
          subst hov
          apply ih
          rcases buildKeyMap_mem n.children [] e he with h' | h'
          · simp at h'
          · have := children_sizeOf_lt n
            omega
        · rename_i heq
          rw [hl] at heq
          cases heq
    | SequenceNode =>
      rw [if_neg (by decide), if_pos rfl, if_neg (by decide)]
      simp only [List.nil_append, List.append_nil]
      simp only [Nat.min_self, List.take_length, List.drop_length]
      simp only [idxFrom, List.map_nil, List.append_nil]
      rw [List.flatMap_eq_nil_iff]
      intro x hx
      obtain ⟨⟨i, oc, nc⟩, he⟩ := x
      dsimp only
      have hoc := List.mem_of_mem_take (zipIdx_mem he).1
      have heq := zipIdx_self _ he
      subst heq
      apply ih
      have := sizeOf_lt_of_mem_children hoc
      omega
    | ScalarNode =>
      rw [if_neg (by decide), if_neg (by decide), if_neg (by decide)]
      rfl
    | AliasNode =>
      rw [if_neg (by decide), if_neg (by decide), if_neg (by decide)]
      rfl
    | NullNode =>
      rw [if_neg (by decide), if_neg (by decide), if_neg (by decide)]
      rfl

/-- C4: diffing a tree against itself reports no differences, and for
every node `n` and path `p`, DiffNodes n n p is the empty list: no
Added, Removed, Modified, StyleChanged or CommentChanged entry is
produced when old and new coincide. -/
theorem diffTrees_self :
    (∀ t : NodeTree, DiffTrees t t = []) ∧
    (∀ (n : Option Node) (path : String), DiffNodes n n path = []) := by
  have hnode : ∀ (n : Option Node) (path : String), DiffNodes n n path = [] := by
    intro n path
    cases n with
    | none => rw [DiffNodes.eq_def]
    | some m => exact diffNodes_self_aux (sizeOf m + 1) m (by omega) path
  refine ⟨?_, hnode⟩
  intro t
  unfold DiffTrees
  dsimp only
  rw [List.flatMap_eq_nil_iff]
  intro i hi
  cases hd : t.documents.get? i with
  | none => rfl
  | some doc => exact hnode doc.root _

/- ------------------------------------------------------------------ -/
/- C5: the mapping evenness invariant                                  -/
/- ------------------------------------------------------------------ -/

theorem evenMapsList_nil : evenMapsList [] = true := by
  rw [evenMapsList.eq_def]

theorem evenMapsList_cons (c : Node) (rest : List Node) :
    evenMapsList (c :: rest) = (evenMaps c && evenMapsList rest) := by
  rw [evenMapsList.eq_def]

theorem evenMaps_eq (n : Node) : evenMaps n =
    ((if n.kind = .MappingNode then decide (n.children.length % 2 = 0) else true) &&
      evenMapsList n.children) := by
  rw [evenMaps.eq_def]

theorem evenMapsList_append (l1 l2 : List Node) :
    evenMapsList (l1 ++ l2) = (evenMapsList l1 && evenMapsList l2) := by
  induction l1 with
  | nil => rw [List.nil_append, evenMapsList_nil, Bool.true_and]
  | cons c rest ih =>
    rw [List.cons_append, evenMapsList_cons, evenMapsList_cons, ih, Bool.and_assoc]

theorem evenMaps_congr {a b : Node} (hk : a.kind = b.kind) (hc : a.children = b.children) :
    evenMaps a = evenMaps b := by
  rw [evenMaps_eq, evenMaps_eq, hk, hc]

theorem evenMaps_of_parts {n : Node} (hk : n.kind = .MappingNode)
    (hp : n.children.length % 2 = 0) (hl : evenMapsList n.children = true) :
    evenMaps n = true := by
  rw [evenMaps_eq, if_pos hk, hl, Bool.and_true]
  simp [hp]

theorem evenMaps_of_parts_nonmap {n : Node} (hk : ¬ n.kind = .MappingNode)
    (hl : evenMapsList n.children = true) : evenMaps n = true := by
  rw [evenMaps_eq, if_neg hk, hl, Bool.and_true]

theorem kind_withData (n : Node) (d : NodeData) : (n.withData d).kind = d.kind := by
  cases n
  rfl

theorem children_withData (n : Node) (d : NodeData) : (n.withData d).children = n.children := by
  cases n
  rfl

theorem children_withKey (n : Node) (k : Option Node) : (n.withKey k).children = n.children := by
  cases n
  rfl

theorem evenMaps_withData (n : Node) (d : NodeData) (hk : d.kind = n.kind) :
    evenMaps (n.withData d) = evenMaps n :=
  evenMaps_congr (by rw [kind_withData]; exact hk) (children_withData n d)

theorem evenMaps_withKey (n : Node) (k : Option Node) : evenMaps (n.withKey k) = evenMaps n :=
  evenMaps_congr (kind_withKey n k) (children_withKey n k)

theorem mergeOverlayPairs_parity : ∀ (cs : List Node) (bk : List (String × Nat))
    (cur : List Node), (mergeOverlayPairs bk cs cur).length % 2 = cur.length % 2
  | [], bk, cur => by rw [mergeOverlayPairs.eq_def]
  | [k], bk, cur => by rw [mergeOverlayPairs.eq_def]
  | k :: v :: rest, bk, cur => by
    rw [mergeOverlayPairs.eq_def]
    dsimp only
    rw [mergeOverlayPairs_parity rest bk]
    by_cases h1 : k.kind = .ScalarNode
    · rw [if_pos h1]
      cases hl : mapLookup bk k.render with
      | none =>
        simp only [List.length_append, List.length_cons, List.length_nil]
        omega
      | some i =>
        dsimp only
        by_cases h2 : (cur.getD (i + 1) defaultNode).kind = .MappingNode ∧
            v.kind = .MappingNode
        · rw [if_pos h2]
          rw [List.length_set]
        · rw [if_neg h2]
          rw [List.length_set, List.length_set]
    · rw [if_neg h1]

theorem addKeyValue_parity (n : Node) (k : Option Node) (v m : Node)
    (h : n.AddKeyValue k v = .ok m) : m.children.length % 2 = n.children.length % 2 := by
  unfold Node.AddKeyValue at h
  split at h
  · cases h
  · cases k with
    | none =>
      cases h
      rfl
    | some kn =>
      cases h
      simp only [children_withChildren, List.length_append, List.length_cons,
        List.length_nil]
      omega

theorem mergeNonNil_mapping_parity (b o : Node) (hb : b.kind = .MappingNode)
    (ho : o.kind = .MappingNode) :
    (MergeNonNil b o).children.length % 2 = b.children.length % 2 := by
  rw [MergeNonNil.eq_def, if_pos ⟨hb, ho⟩]
  dsimp only
  rw [children_withChildren, Clone_eq, mergeOverlayPairs_parity]

theorem removeKeyPairs_even (key : String) : ∀ cs : List Node,
    (removeKeyPairs key cs).length % 2 = 0
  | [] => by simp [removeKeyPairs]
  | [k] => by simp [removeKeyPairs]
  | k :: v :: rest => by
    rw [removeKeyPairs, List.length_append]
    have hr := removeKeyPairs_even key rest
    by_cases h : k.kind ≠ .ScalarNode ∨ k.render ≠ key
    · rw [if_pos h]
      simp only [List.length_cons, List.length_nil]
      omega
    · rw [if_neg h]
      simp only [List.length_nil]
      omega

theorem renameKeyChildren_length (o k : String) : ∀ cs : List Node,
    (renameKeyChildren o k cs).length = cs.length
  | [] => by simp [renameKeyChildren]
  | [x] => by simp [renameKeyChildren]
  | a :: b :: rest => by
    rw [renameKeyChildren]
    by_cases h : a.kind = .ScalarNode ∧ a.render = o
    · rw [if_pos h]
      rfl
    · rw [if_neg h]
      simp only [List.length_cons]
      rw [renameKeyChildren_length o k rest]

theorem flatten_fold_props : ∀ (l : List (String × Node)) (acc : Node),
    acc.kind = .MappingNode → acc.children.length % 2 = 0 →
    ((l.foldl (fun acc kv =>
        match acc.AddKeyValue (some (NewScalarNode (.vStr kv.1))) kv.2 with
        | .ok m => m
        | .error _ => acc) acc).kind = .MappingNode ∧
      (l.foldl (fun acc kv =>
        match acc.AddKeyValue (some (NewScalarNode (.vStr kv.1))) kv.2 with
        | .ok m => m
        | .error _ => acc) acc).children.length % 2 = 0)
  | [], acc, hk, he => ⟨hk, he⟩
  | kv :: rest, acc, hk, he => by
    rw [List.foldl_cons]
    have hstep : acc.AddKeyValue (some (NewScalarNode (.vStr kv.1))) kv.2 =
        .ok (acc.withChildren (acc.children ++
          [NewScalarNode (.vStr kv.1),
            kv.2.withKey (some (NewScalarNode (.vStr kv.1)))])) := by
      unfold Node.AddKeyValue
      rw [if_neg (by simp [hk])]
    apply flatten_fold_props rest
    · simp only [hstep]
      rw [kind_withChildren]
      exact hk
    · simp only [hstep]
      simp only [children_withChildren, List.length_append, List.length_cons,
        List.length_nil]
      omega

theorem replaceChildAt_length (n : Node) (i : Nat) (r : Node) :
    (n.replaceChildAt i r).children.length = n.children.length := by
  unfold Node.replaceChildAt
  split
  · rfl
  · rw [children_withChildren, List.length_set]

theorem convertMapPairs_cons (decode : String → String → Value) (yk yv : YNode)
    (rest : List YNode) (acc : Node) (hk : acc.kind = .MappingNode) :
    convertMapPairs decode (yk :: yv :: rest) acc =
      convertMapPairs decode rest (acc.withChildren (acc.children ++
        [(if (ConvertFromYAMLNode decode yk).kind = .ScalarNode ∧ yk.value = "null"
          then (ConvertFromYAMLNode decode yk).withData
            { (ConvertFromYAMLNode decode yk).data with value := .vStr "null" }
          else ConvertFromYAMLNode decode yk),
         (ConvertFromYAMLNode decode yv).withKey
           (some (if (ConvertFromYAMLNode decode yk).kind = .ScalarNode ∧ yk.value = "null"
            then (ConvertFromYAMLNode decode yk).withData
              { (ConvertFromYAMLNode decode yk).data with value := .vStr "null" }
            else ConvertFromYAMLNode decode yk))])) := by
  rw [convertMapPairs.eq_def]
  dsimp only
  unfold Node.AddKeyValue
  rw [if_neg (by simp [hk])]

theorem convertSeqChildren_cons (decode : String → String → Value) (y : YNode)
    (rest : List YNode) (acc : Node) :
    convertSeqChildren decode (y :: rest) acc =
      convertSeqChildren decode rest (acc.AddChild (ConvertFromYAMLNode decode y)) := by
  rw [convertSeqChildren.eq_def]

theorem convert_even_aux (decode : String → String → Value) : ∀ fuel : Nat,
    (∀ y : YNode, sizeOf y < fuel → evenMaps (ConvertFromYAMLNode decode y) = true) ∧
    (∀ (cs : List YNode) (acc : Node), sizeOf cs < fuel → acc.kind = .MappingNode →
      acc.children.length % 2 = 0 → evenMapsList acc.children = true →
      (convertMapPairs decode cs acc).kind = .MappingNode ∧
      (convertMapPairs decode cs acc).children.length % 2 = 0 ∧
      evenMapsList (convertMapPairs decode cs acc).children = true) ∧
    (∀ (cs : List YNode) (acc : Node), sizeOf cs < fuel → ¬ acc.kind = .MappingNode →
      evenMapsList acc.children = true →
      evenMaps (convertSeqChildren decode cs acc) = true) := by
  intro fuel
  induction fuel with
  | zero =>
    refine ⟨?_, ?_, ?_⟩
    · intro y hy
      omega
    · intro cs acc hsz
      omega
    · intro cs acc hsz
      omega
  | succ f ih =>
    refine ⟨?_, ?_, ?_⟩
    · intro y hy
      rw [ConvertFromYAMLNode.eq_def]
      dsimp only
      by_cases hm : convKind y.kind = .MappingNode
      · rw [if_pos hm]
        refine evenMaps_of_parts ?_ ?_ ?_
        · refine (ih.2.1 y.content _ ?_ ?_ ?_ ?_).1
          · have := content_sizeOf_lt y
            omega
          · exact hm
          · rfl
          · exact evenMapsList_nil
        · refine (ih.2.1 y.content _ ?_ ?_ ?_ ?_).2.1
          · have := content_sizeOf_lt y
            omega
          · exact hm
          · rfl
          · exact evenMapsList_nil
        · refine (ih.2.1 y.content _ ?_ ?_ ?_ ?_).2.2
          · have := content_sizeOf_lt y
            omega
          · exact hm
          · rfl
          · exact evenMapsList_nil
      · rw [if_neg hm]
        by_cases hs : convKind y.kind = .SequenceNode ∨ convKind y.kind = .DocumentNode
        · rw [if_pos hs]
          refine ih.2.2 y.content _ ?_ ?_ ?_
          · have := content_sizeOf_lt y
            omega
          · exact hm
          · exact evenMapsList_nil
        · rw [if_neg hs]
          exact evenMaps_of_parts_nonmap hm evenMapsList_nil
    · intro cs acc hsz hk hp hl
      cases cs with
      | nil =>
        have he : convertMapPairs decode [] acc = acc := by rw [convertMapPairs.eq_def]
        rw [he]
        exact ⟨hk, hp, hl⟩
      | cons yk rest1 =>
        cases rest1 with
        | nil =>
          have he : convertMapPairs decode [yk] acc = acc := by
            rw [convertMapPairs.eq_def]
          rw [he]
          exact ⟨hk, hp, hl⟩
        | cons yv rest =>
          rw [convertMapPairs_cons decode yk yv rest acc hk]
          simp only [List.cons.sizeOf_spec] at hsz
          have hkey0 : evenMaps (ConvertFromYAMLNode decode yk) = true :=
            ih.1 yk (by omega)
          have hval0 : evenMaps (ConvertFromYAMLNode decode yv) = true :=
            ih.1 yv (by omega)
          refine ih.2.1 rest _ ?_ ?_ ?_ ?_
          · omega
          · rw [kind_withChildren]
            exact hk
          · simp only [children_withChildren, List.length_append, List.length_cons,
              List.length_nil]
            omega
          · rw [children_withChildren, evenMapsList_append, evenMapsList_cons,
              evenMapsList_cons, evenMapsList_nil, hl]
            have hkey : evenMaps (if (ConvertFromYAMLNode decode yk).kind = .ScalarNode ∧
                yk.value = "null"
                then (ConvertFromYAMLNode decode yk).withData
                  { (ConvertFromYAMLNode decode yk).data with value := .vStr "null" }
                else ConvertFromYAMLNode decode yk) = true := by
              by_cases hn : (ConvertFromYAMLNode decode yk).kind = .ScalarNode ∧
                  yk.value = "null"
              · rw [if_pos hn, evenMaps_withData]
                exacts [hkey0, rfl]
              · rw [if_neg hn]
                exact hkey0
            rw [hkey, evenMaps_withKey, hval0]
            rfl
    · intro cs acc hsz hk hl
      cases cs with
      | nil =>
        have he : convertSeqChildren decode [] acc = acc := by
          rw [convertSeqChildren.eq_def]
        rw [he]
        exact evenMaps_of_parts_nonmap hk hl
      | cons y rest =>
        rw [convertSeqChildren_cons]
        simp only [List.cons.sizeOf_spec] at hsz
        have hc : evenMaps (ConvertFromYAMLNode decode y) = true := ih.1 y (by omega)
        refine ih.2.2 rest _ ?_ ?_ ?_
        · omega
        · unfold Node.AddChild
          rw [kind_withChildren]
          exact hk
        · unfold Node.AddChild
          rw [children_withChildren, evenMapsList_append, evenMapsList_cons,
            evenMapsList_nil, hl, hc]
          rfl

/-- C5 counterexample: Node.Remove does NOT preserve the mapping
evenness invariant.  For the mapping {a: 1} (two children: the key and
the value), removing the child at position 0 — exactly what
key.Remove() does through the parent, src/yaml.go lines 424-430 splice
out one child — leaves a single-child (odd) mapping. -/
theorem remove_breaks_mapping_evenness :
    (mapOf [(scalarStr "a", scalarInt 1)]).kind = .MappingNode ∧
    (mapOf [(scalarStr "a", scalarInt 1)]).children.length % 2 = 0 ∧
    ((mapOf [(scalarStr "a", scalarInt 1)]).removeChildAt 0).children.length % 2 = 1 := by
  refine ⟨rfl, rfl, rfl⟩

/-- C5 (amended): every listed operation except Node.Remove preserves
the invariant that a Mapping node has an even number of children, the
formalisable half of "even length alternating key, value" (any
node may serve as key, so the alternation carries no further structural
content).  Conjuncts: AddKeyValue leaves the parity of the children
list unchanged (it appends a full pair or nothing); MergeNodes on two
mappings gives a result with the parity of the base (MergeNonNil is
MergeNodes on non-nil inputs); removeKey always rebuilds an even list;
renameKey preserves the children count; sortKeys rebuilds an even list;
flatten rebuilds an even list; ReplaceWith (replaceChildAt, from the
parent) preserves the children count; and conversion from parsed YAML
satisfies the invariant deeply, at every node of the produced tree, for
every scalar decoder.  Remove itself breaks the invariant — see the
counterexample theorem. -/
theorem mapping_evenness_ops :
    (∀ (n : Node) (k : Option Node) (v m : Node), n.AddKeyValue k v = .ok m →
      m.children.length % 2 = n.children.length % 2) ∧
    (∀ b o : Node, b.kind = .MappingNode → o.kind = .MappingNode →
      (MergeNonNil b o).children.length % 2 = b.children.length % 2) ∧
    (∀ (key : String) (n : Node), n.kind = .MappingNode →
      (removeKeyGo key n).children.length % 2 = 0) ∧
    (∀ (o k : String) (n : Node),
      (renameKeyGo o k n).children.length = n.children.length) ∧
    (∀ n : Node, n.kind = .MappingNode → (sortKeysGo n).children.length % 2 = 0) ∧
    (∀ n : Node, n.kind = .MappingNode → (flattenGo n).children.length % 2 = 0) ∧
    (∀ (n : Node) (i : Nat) (r : Node),
      (n.replaceChildAt i r).children.length = n.children.length) ∧
    (∀ (decode : String → String → Value) (y : YNode),
      evenMaps (ConvertFromYAMLNode decode y) = true) := by
  refine ⟨addKeyValue_parity, mergeNonNil_mapping_parity, ?_, ?_, ?_, ?_,
    replaceChildAt_length, ?_⟩
  · intro key n h
    unfold removeKeyGo
    rw [if_pos h, children_withChildren]
    exact removeKeyPairs_even key n.children
  · intro o k n
    unfold renameKeyGo
    split
    · rw [children_withChildren]
      exact renameKeyChildren_length o k n.children
    · rfl
  · intro n h
    unfold sortKeysGo
    rw [if_pos h, children_withChildren, flattenPairs_length]
    omega
  · intro n h
    unfold flattenGo
    rw [if_neg (by simp [h])]
    exact (flatten_fold_props (flattenRec n "" []) NewMappingNode rfl rfl).2
  · intro decode y
    exact (convert_even_aux decode (sizeOf y + 1)).1 y (by omega)

/-- C5 witness: the parity conjuncts applied at the concrete C2 mapping
{a: 1, b: 2}: merging with {b: 3, c: 4} keeps even children, and
removeKey, renameKey, sortKeys and flatten all yield even children. -/
theorem mapping_evenness_ops_witness :
    (MergeNonNil c2base c2overlay).children.length % 2 = c2base.children.length % 2 ∧
    (removeKeyGo "a" c2base).children.length % 2 = 0 ∧
    (sortKeysGo c2base).children.length % 2 = 0 ∧
    (flattenGo c2base).children.length % 2 = 0 :=
  ⟨mapping_evenness_ops.2.1 c2base c2overlay rfl rfl,
   mapping_evenness_ops.2.2.1 "a" c2base rfl,
   mapping_evenness_ops.2.2.2.2.1 c2base rfl,
   mapping_evenness_ops.2.2.2.2.2.1 c2base rfl⟩

/- ------------------------------------------------------------------ -/
/- C6: Apply and the input tree                                        -/
/- ------------------------------------------------------------------ -/

theorem selectPairs_c6 :
    selectPairs (fun _ => true) [scalarStr "a", scalarInt 1] =
      ([scalarStr "a", (scalarInt 1).withKey (some (scalarStr "a"))],
       [scalarStr "a", (scalarInt 1).withKey (some (scalarStr "a"))]) := by
  rw [selectPairs.eq_def]
  dsimp only
  rw [show selectPairs (fun _ => true) ([] : List Node) = ([], []) from by
    rw [selectPairs.eq_def]]
  rw [if_pos rfl]
  rfl

theorem selectNodeGo_c6 :
    selectNodeGo c6root (fun _ => true) =
      (some ((c6root.withChildren
          [scalarStr "a", (scalarInt 1).withKey (some (scalarStr "a"))]).Clone.withChildren
          [scalarStr "a", (scalarInt 1).withKey (some (scalarStr "a"))]),
       c6root.withChildren [scalarStr "a", (scalarInt 1).withKey (some (scalarStr "a"))]) := by
  rw [selectNodeGo.eq_def]
  rw [if_neg (by decide), if_pos (by decide)]
  dsimp only
  rw [show c6root.children = [scalarStr "a", scalarInt 1] from rfl, selectPairs_c6]
  rw [if_neg (by decide)]

/-- C6 counterexample: a pipeline holding a select DOES mutate the input
tree.  selectNode assigns `valueNode.Key = keyNode` on the ORIGINAL
value node of every traversed mapping pair (src/advanced.go line 623),
so for the tree around {a: 1} whose value node starts with no Key
back-reference, the post-state of Apply carries Key = the key node "a"
on that value node, and the post-state tree differs from the input. -/
theorem apply_select_mutates_input :
    ((ApplyPost [.select (fun _ => true)] c6tree).documents.map
        (fun d => d.root.map (fun r => (r.children.getD 1 defaultNode).key))) =
      [some (some (scalarStr "a"))] ∧
    (c6tree.documents.map
        (fun d => d.root.map (fun r => (r.children.getD 1 defaultNode).key))) =
      [some none] ∧
    ApplyPost [.select (fun _ => true)] c6tree ≠ c6tree := by
  have hpost : ApplyPost [.select (fun _ => true)] c6tree =
      { documents := [{ root := some (c6root.withChildren
          [scalarStr "a", (scalarInt 1).withKey (some (scalarStr "a"))]) }],
        current := some 0 } := by
    simp only [ApplyPost, applyToNodePost, c6tree, firstSelect, List.map_cons,
      List.map_nil, Option.map_some']
    rw [selectNodeGo_c6]
  have P1 : ((ApplyPost [.select (fun _ => true)] c6tree).documents.map
      (fun d => d.root.map (fun r => (r.children.getD 1 defaultNode).key))) =
      [some (some (scalarStr "a"))] := by
    rw [hpost]
    rfl
  have P2 : (c6tree.documents.map
      (fun d => d.root.map (fun r => (r.children.getD 1 defaultNode).key))) =
      [some none] := rfl
  refine ⟨P1, P2, fun h => ?_⟩
  rw [h, P2] at P1
  simp at P1

/-- C6 (amended): Apply leaves the input tree completely unchanged for
every pipeline that queues NO select operation: the operations all run
on `node.Clone()` and nodes derived from the clone (src/advanced.go
lines 891-919), and Apply itself builds a fresh result tree and fresh
documents (lines 846-874).  Pipelines that do contain a select mutate
the input — see the counterexample theorem. -/
theorem apply_no_select_preserves_input (ts : List TransformOp) (t : NodeTree)
    (h : firstSelect ts = none) : ApplyPost ts t = t := by
  have hid : ∀ r : Option Node, Option.map (applyToNodePost ts) r = r := by
    intro r
    cases r with
    | none => rfl
    | some n => simp [applyToNodePost, h]
  simp only [ApplyPost, hid]
  cases t
  simp

/-- C6 witness: a select-free pipeline (sortKeys then removeKey) leaves
the concrete one-document tree untouched. -/
theorem apply_no_select_preserves_input_witness :
    ApplyPost [.sortKeys, .removeKey "a"] c6tree = c6tree :=
  apply_no_select_preserves_input [.sortKeys, .removeKey "a"] c6tree rfl

/- ------------------------------------------------------------------ -/
/- C8, C9, C10                                                          -/
/- ------------------------------------------------------------------ -/

/-- C8: a pipeline holding a select anywhere behaves exactly like the
pipeline holding ONLY that select: applyToNode short-circuits on the
first queued select (src/advanced.go lines 885-889) before any other
operation runs, so every other queued operation — before or after the
select — has no effect on Apply's output, nor on the input's
post-state. -/
theorem apply_select_short_circuit (fuel : Nat) (ts : List TransformOp) (p : Node → Bool)
    (h : firstSelect ts = some p) (t : NodeTree) :
    ApplyOut fuel ts t = ApplyOut fuel [.select p] t ∧
    ApplyPost ts t = ApplyPost [.select p] t := by
  have hnode : ∀ n : Node, applyToNodeOut fuel ts n = applyToNodeOut fuel [.select p] n := by
    intro n
    rw [applyToNodeOut.eq_def]
    rw [applyToNodeOut.eq_def]
    rw [h]
    rfl
  have hdocs : ∀ ds : List Document,
      ApplyOut.applyDocsOut fuel ts ds = ApplyOut.applyDocsOut fuel [.select p] ds := by
    intro ds
    induction ds with
    | nil => rfl
    | cons d rest ih =>
      simp only [ApplyOut.applyDocsOut]
      rw [ih]
      cases hr : d.root with
      | none => rfl
      | some r =>
        dsimp only
        rw [hnode r]
  constructor
  · unfold ApplyOut
    rw [hdocs]
  · simp only [ApplyPost]
    have hpost : ∀ r : Option Node,
        Option.map (applyToNodePost ts) r = Option.map (applyToNodePost [.select p]) r := by
      intro r
      cases r with
      | none => rfl
      | some n =>
        simp only [Option.map_some', applyToNodePost, h, firstSelect]
    simp only [hpost]

/-- C8 witness: queueing sortKeys ahead of a select changes nothing
against the select alone, on the concrete one-document tree. -/
theorem apply_select_short_circuit_witness :
    ApplyOut 1 [.sortKeys, .select (fun _ => true)] c6tree =
      ApplyOut 1 [.select (fun _ => true)] c6tree ∧
    ApplyPost [.sortKeys, .select (fun _ => true)] c6tree =
      ApplyPost [.select (fun _ => true)] c6tree :=
  apply_select_short_circuit 1 [.sortKeys, .select (fun _ => true)] (fun _ => true) rfl c6tree

/-- C9: UnmarshalYAML on empty input takes the `len(data) == 0` branch,
src/yaml.go lines 861-867: it returns a nil error and a tree holding
exactly one Document with a nil root, for EVERY external parser and
scalar decoder — the parser is never consulted, so the empty input can
never surface as a parse failure. -/
theorem unmarshal_empty_input :
    ∀ (yamlParse : String → Except String YNode) (decode : String → String → Value),
      UnmarshalYAML yamlParse decode "" =
        .ok { documents := [{ root := none }], current := some 0 } := by
  intro yamlParse decode
  rfl

/-- C10: MergeNodes is total over nil inputs: nil/nil gives nil, and a
nil on either side gives `Clone` of the other argument (src/yaml.go
lines 461-468).  On pure trees the deep clone is the structural
identity (`Clone_eq`), which is all the "deep clone" can mean here: the
freshness of the returned pointers (result aliased with neither input)
is a heap property outside a structural model. -/
theorem mergeNodes_nil_total :
    MergeNodes none none = none ∧
    (∀ n : Node, MergeNodes (some n) none = some n.Clone) ∧
    (∀ n : Node, MergeNodes none (some n) = some n.Clone) ∧
    (∀ n : Node, n.Clone = n) :=
  ⟨rfl, fun n => rfl, fun n => rfl, Clone_eq⟩

/- ------------------------------------------------------------------ -/
/- C7: sortKeys                                                        -/
/- ------------------------------------------------------------------ -/

theorem cons_set_perm : ∀ (t : List α) (m : Nat) (a : α) (hm : m < t.length),
    List.Perm (t.get ⟨m, hm⟩ :: t.set m a) (a :: t)
  | b :: t1, 0, a, hm => List.Perm.swap a b t1
  | b :: t1, m + 1, a, hm => by
    have hm1 : m < t1.length := by simpa using hm
    have ih := cons_set_perm t1 m a hm1
    show List.Perm (t1.get ⟨m, hm1⟩ :: b :: t1.set m a) (a :: b :: t1)
    exact (List.Perm.swap b (t1.get ⟨m, hm1⟩) (t1.set m a)).trans
      ((ih.cons b).trans (List.Perm.swap a b t1))

theorem set_set_swap_perm : ∀ (l : List α) (i j : Nat) (hi : i < l.length)
    (hj : j < l.length),
    List.Perm ((l.set i (l.get ⟨j, hj⟩)).set j (l.get ⟨i, hi⟩)) l
  | a :: t, 0, 0, hi, hj => List.Perm.refl _
  | a :: t, 0, j + 1, hi, hj => by
    have hj1 : j < t.length := by simpa using hj
    exact cons_set_perm t j a hj1
  | a :: t, i + 1, 0, hi, hj => by
    have hi1 : i < t.length := by simpa using hi
    exact cons_set_perm t i a hi1
  | a :: t, i + 1, j + 1, hi, hj => by
    have hi1 : i < t.length := by simpa using hi
    have hj1 : j < t.length := by simpa using hj
    exact (set_set_swap_perm t i j hi1 hj1).cons a

theorem lswap_length (l : List α) (i j : Nat) : (lswap l i j).length = l.length := by
  unfold lswap
  split
  · rw [List.length_set, List.length_set]
  · rfl

theorem lswap_perm (l : List α) (i j : Nat) : List.Perm (lswap l i j) l := by
  unfold lswap
  split
  · rename_i x y hx hy
    rw [List.get?_eq_getElem?] at hx hy
    rcases List.getElem?_eq_some_iff.mp hx with ⟨hi, hxe⟩
    rcases List.getElem?_eq_some_iff.mp hy with ⟨hj, hye⟩
    rw [← hxe, ← hye]
    exact set_set_swap_perm l i j hi hj
  · exact List.Perm.refl l

theorem lswap_getD_fst (l : List α) (i j : Nat) (d : α) (hi : i < l.length)
    (hj : j < l.length) (hne : i ≠ j) : (lswap l i j).getD i d = l.getD j d := by
  unfold lswap
  rw [show l.get? i = some l[i] from by
      rw [List.get?_eq_getElem?]; exact List.getElem?_eq_getElem hi,
    show l.get? j = some l[j] from by
      rw [List.get?_eq_getElem?]; exact List.getElem?_eq_getElem hj]
  rw [List.getD_eq_getElem _ _ (by rw [List.length_set, List.length_set]; exact hi)]
  rw [List.getElem_set_of_ne (Ne.symm hne), List.getElem_set_self]
  rw [List.getD_eq_getElem _ _ hj]

theorem lswap_getD_snd (l : List α) (i j : Nat) (d : α) (hi : i < l.length)
    (hj : j < l.length) : (lswap l i j).getD j d = l.getD i d := by
  unfold lswap
  rw [show l.get? i = some l[i] from by
      rw [List.get?_eq_getElem?]; exact List.getElem?_eq_getElem hi,
    show l.get? j = some l[j] from by
      rw [List.get?_eq_getElem?]; exact List.getElem?_eq_getElem hj]
  rw [List.getD_eq_getElem _ _ (by rw [List.length_set, List.length_set]; exact hj)]
  rw [List.getElem_set_self]
  rw [List.getD_eq_getElem _ _ hi]

theorem lswap_getD_other (l : List α) (i j x : Nat) (d : α) (hx : x < l.length)
    (hxi : x ≠ i) (hxj : x ≠ j) : (lswap l i j).getD x d = l.getD x d := by
  unfold lswap
  split
  · rw [List.getD_eq_getElem _ _ (by rw [List.length_set, List.length_set]; exact hx)]
    rw [List.getElem_set_of_ne (Ne.symm hxj), List.getElem_set_of_ne (Ne.symm hxi)]
    rw [List.getD_eq_getElem _ _ hx]
  · rfl

theorem sortInner_spec (kf : α → String) (dflt : α) (i : Nat) :
    ∀ (fuel j : Nat) (l : List α), i < j → j + fuel = l.length →
    (sortInner kf dflt i fuel j l).length = l.length ∧
    List.Perm (sortInner kf dflt i fuel j l) l ∧
    (∀ x, x < j → x ≠ i →
      (sortInner kf dflt i fuel j l).getD x dflt = l.getD x dflt) ∧
    kf ((sortInner kf dflt i fuel j l).getD i dflt) ≤ kf (l.getD i dflt) ∧
    (∀ x, j ≤ x → x < l.length →
      kf ((sortInner kf dflt i fuel j l).getD i dflt) ≤
        kf ((sortInner kf dflt i fuel j l).getD x dflt)) := by
  intro fuel
  induction fuel with
  | zero =>
    intro j l hij hlen
    rw [sortInner]
    refine ⟨rfl, List.Perm.refl l, fun x hx hxi => rfl, le_refl _, fun x hjx hxl => ?_⟩
    omega
  | succ f ih =>
    intro j l hij hlen
    rw [sortInner]
    have hjlen : j < l.length := by omega
    have hilen : i < l.length := by omega
    have hne : i ≠ j := by omega
    obtain ⟨ihlen, ihperm, ihpt, ihi, ihmin⟩ :=
      ih (j + 1) (if kf (l.getD j dflt) < kf (l.getD i dflt) then lswap l i j else l)
        (by omega)
        (by split
            · rw [lswap_length]; omega
            · omega)
    set l1 := if kf (l.getD j dflt) < kf (l.getD i dflt) then lswap l i j else l with hl1
    have hl1len : l1.length = l.length := by
      rw [hl1]
      split
      · exact lswap_length l i j
      · rfl
    have hl1perm : List.Perm l1 l := by
      rw [hl1]
      split
      · exact lswap_perm l i j
      · exact List.Perm.refl l
    have hl1other : ∀ x, x < l.length → x ≠ i → x ≠ j → l1.getD x dflt = l.getD x dflt := by
      intro x hx hxi hxj
      rw [hl1]
      split
      · exact lswap_getD_other l i j x dflt hx hxi hxj
      · rfl
    have hl1i : kf (l1.getD i dflt) ≤ kf (l.getD i dflt) := by
      rw [hl1]
      split
      · rename_i hlt
        rw [lswap_getD_fst l i j dflt hilen hjlen hne]
        exact le_of_lt hlt
      · exact le_refl _
    have hl1ij : kf (l1.getD i dflt) ≤ kf (l1.getD j dflt) := by
      rw [hl1]
      split
      · rename_i hlt
        rw [lswap_getD_fst l i j dflt hilen hjlen hne,
          lswap_getD_snd l i j dflt hilen hjlen]
        exact le_of_lt hlt
      · rename_i hlt
        exact le_of_not_lt hlt
    refine ⟨?_, ?_, ?_, ?_, ?_⟩
    · rw [ihlen, hl1len]
    · exact ihperm.trans hl1perm
    · intro x hx hxi
      rw [ihpt x (by omega) hxi]
      exact hl1other x (by omega) hxi (by omega)
    · exact le_trans ihi hl1i
    · intro x hjx hxlen
      by_cases hxj : x = j
      · subst hxj
        rw [ihpt x (by omega) (by omega)]
        exact le_trans ihi hl1ij
      · exact ihmin x (by omega) (by omega)

theorem perm_source_of_prefix_eq (l1 l : List α) (dflt : α) (i : Nat)
    (hlen : l1.length = l.length) (hperm : List.Perm l1 l)
    (hpt : ∀ x, x < i → l1.getD x dflt = l.getD x dflt) :
    ∀ y, i ≤ y → y < l1.length →
      ∃ z, i ≤ z ∧ z < l.length ∧ l1.getD y dflt = l.getD z dflt := by
  intro y hiy hy
  have htake : l1.take i = l.take i := by
    apply List.ext_getElem
    · rw [List.length_take, List.length_take, hlen]
    · intro k h1 h2
      rw [List.getElem_take, List.getElem_take]
      have hk : k < i := by
        simp only [List.length_take] at h1
        omega
      have hk1 : k < l1.length := by
        simp only [List.length_take] at h1
        omega
      have hk2 : k < l.length := by omega
      rw [← List.getD_eq_getElem l1 dflt hk1, ← List.getD_eq_getElem l dflt hk2]
      exact hpt k hk
  have hdrop : List.Perm (l1.drop i) (l.drop i) := by
    have h1 : List.Perm (l1.take i ++ l1.drop i) (l.take i ++ l.drop i) := by
      rw [List.take_append_drop, List.take_append_drop]
      exact hperm
    rw [htake] at h1
    exact (List.perm_append_left_iff _).mp h1
  have hyd : y - i < (l1.drop i).length := by
    rw [List.length_drop]
    omega
  have hymem : l1.getD y dflt ∈ l1.drop i := by
    rw [List.getD_eq_getElem l1 dflt hy]
    have hdi : l1[y] = (l1.drop i)[y - i] := by
      rw [List.getElem_drop]
      congr 1
      omega
    rw [hdi]
    exact List.getElem_mem hyd
  rcases List.mem_iff_getElem.mp (hdrop.subset hymem) with ⟨k, hk, hkeq⟩
  have hkl : i + k < l.length := by
    rw [List.length_drop] at hk
    omega
  refine ⟨i + k, by omega, hkl, ?_⟩
  rw [List.getD_eq_getElem l dflt hkl, ← hkeq, List.getElem_drop]

theorem sortOuter_spec (kf : α → String) (dflt : α) : ∀ (fuel i : Nat) (l : List α),
    i + fuel = l.length →
    (∀ x y, x < y → y < i → kf (l.getD x dflt) ≤ kf (l.getD y dflt)) →
    (∀ x y, x < i → i ≤ y → y < l.length → kf (l.getD x dflt) ≤ kf (l.getD y dflt)) →
    (sortOuter kf dflt fuel i l).length = l.length ∧
    List.Perm (sortOuter kf dflt fuel i l) l ∧
    (∀ x y, x < y → y < l.length →
      kf ((sortOuter kf dflt fuel i l).getD x dflt) ≤
        kf ((sortOuter kf dflt fuel i l).getD y dflt)) := by
  intro fuel
  induction fuel with
  | zero =>
    intro i l hlen hpre hcross
    rw [sortOuter]
    exact ⟨rfl, List.Perm.refl l, fun x y hxy hy => hpre x y hxy (by omega)⟩
  | succ f ih =>
    intro i l hlen hpre hcross
    rw [sortOuter]
    obtain ⟨ilen, iperm, ipt, ii, imin⟩ :=
      sortInner_spec kf dflt i (l.length - (i + 1)) (i + 1) l (by omega) (by omega)
    set l1 := sortInner kf dflt i (l.length - (i + 1)) (i + 1) l with hl1
    have hsrc := perm_source_of_prefix_eq l1 l dflt i ilen iperm
      (fun x hx => ipt x (by omega) (by omega))
    have hpre1 : ∀ x y, x < y → y < i + 1 →
        kf (l1.getD x dflt) ≤ kf (l1.getD y dflt) := by
      intro x y hxy hy
      by_cases hyi : y = i
      · subst hyi
        rw [ipt x (by omega) (by omega)]
        rcases hsrc y (le_refl y) (by omega) with ⟨z, hz1, hz2, hz3⟩
        rw [hz3]
        exact hcross x z (by omega) hz1 hz2
      · rw [ipt x (by omega) (by omega), ipt y (by omega) hyi]
        exact hpre x y hxy (by omega)
    have hcross1 : ∀ x y, x < i + 1 → i + 1 ≤ y → y < l1.length →
        kf (l1.getD x dflt) ≤ kf (l1.getD y dflt) := by
      intro x y hx hy hylen
      by_cases hxi : x = i
      · subst hxi
        exact imin y hy (by omega)
      · rw [ipt x (by omega) hxi]
        rcases hsrc y (by omega) hylen with ⟨z, hz1, hz2, hz3⟩
        rw [hz3]
        exact hcross x z (by omega) (by omega) hz2
    obtain ⟨olen, operm, osort⟩ := ih (i + 1) l1 (by omega) hpre1 hcross1
    refine ⟨?_, ?_, ?_⟩
    · rw [olen, ilen]
    · exact operm.trans iperm
    · intro x y hxy hy
      exact osort x y hxy (by omega)

/-- C7 counterexample: the exchange sort of SortKeys is NOT stable.  For
the mapping holding the pairs (b: 1), (b: 2), (a: 3) — the first two
pairs share the rendered key "b" — the sorted children read
a, 3, b, 2, b, 1: the two b-pairs come out in REVERSED relative order
(value 2 before value 1), because the i=0 pass swaps the first b-pair to
the back when it meets key "a". -/
theorem sortKeys_unstable :
    c7map.children.map Node.render = ["b", "1", "b", "2", "a", "3"] ∧
    (sortKeysGo c7map).children.map Node.render = ["a", "3", "b", "2", "b", "1"] := by
  refine ⟨rfl, ?_⟩
  unfold sortKeysGo
  rw [if_pos (show c7map.kind = .MappingNode from rfl), children_withChildren]
  simp only [sortPairsGo, sortOuter, sortInner, String.lt_iff_toList_lt]
  norm_num
  decide

/-- C7 (amended): sortKeys reorders a Mapping node's key/value pairs
into nondecreasing order of rendered key text, and the result's pairs
are a permutation of the original pairs; the sort is an exchange sort
(src/advanced.go lines 761-769) and is NOT stable — pairs with equal
rendered keys can come out in reversed relative order (see the
counterexample theorem). -/
theorem sortKeys_sorted_perm (n : Node) (h : n.kind = .MappingNode) :
    List.Perm (goPairs (sortKeysGo n).children) (goPairs n.children) ∧
    List.Pairwise (fun p q : Node × Node => p.1.render ≤ q.1.render)
      (goPairs (sortKeysGo n).children) := by
  obtain ⟨olen, operm, osort⟩ := sortOuter_spec (fun p : Node × Node => p.1.render)
    (defaultNode, defaultNode) (goPairs n.children).length 0 (goPairs n.children)
    (by omega)
    (fun x y hxy hy => absurd hy (by omega))
    (fun x y hx hy hylen => absurd hx (by omega))
  have hsp : sortPairsGo (goPairs n.children) =
      sortOuter (fun p : Node × Node => p.1.render) (defaultNode, defaultNode)
        (goPairs n.children).length 0 (goPairs n.children) := rfl
  rw [← hsp] at olen operm osort
  unfold sortKeysGo
  rw [if_pos h, children_withChildren, goPairs_flattenPairs]
  refine ⟨operm, ?_⟩
  rw [List.pairwise_iff_getElem]
  intro a b ha hb hab
  have ha1 : a < (goPairs n.children).length := by omega
  have hb1 : b < (goPairs n.children).length := by omega
  have hs := osort a b hab hb1
  rw [List.getD_eq_getElem _ _ (by omega), List.getD_eq_getElem _ _ (by omega)] at hs
  exact hs

/-- C7 witness: the sortedness/permutation theorem applied at the
concrete three-pair mapping of the counterexample. -/
theorem sortKeys_sorted_perm_witness :
    List.Perm (goPairs (sortKeysGo c7map).children) (goPairs c7map.children) ∧
    List.Pairwise (fun p q : Node × Node => p.1.render ≤ q.1.render)
      (goPairs (sortKeysGo c7map).children) :=
  sortKeys_sorted_perm c7map rfl

end YamlAdv